import Mathlib

/-!
Verification of the `codn` encrypted key-value store (cryptographic blob
layer).  The Python source is shallowly embedded: pure functions become Lean
functions over `List ℕ` byte strings (each byte a natural number below 256),
stateful stream code becomes explicit position passing, and fallible code
returns `Except PyErr`.  Cryptographic primitives supplied by outside
libraries (ChaCha20, BLAKE2s, CRC-32, the KDF) are parameters of the
embedding, collected in `CryptoPrimitives`; the theorems hold for every
choice of these primitives satisfying the stated well-formedness (mostly
output-length) conditions, which the concrete library functions satisfy.
Randomness consumed by the code (`get_random_bytes`, nonces, padding) is
passed in as explicit arguments.

Parts of the repository that are referenced but whose source is not part of
this tree (the `codn._common` constants, `codn.a_base` KDF and imprint,
`codn.b_cryptoblobs._10_byte_funcs`, `FragmentIO`, and the
`codn.cryptodir.namegroup` update/read protocol) are modelled from the
specification; each such definition carries a doc comment starting with
`Modelled from the spec:`.
-/

/-- Python exception classes raised by the embedded code.  One constructor
per exception class; classes whose instances carry a message string carry it
here as well. -/
inductive PyErr where
  | insufficientData
  | checksumMismatch (msg : String)
  | groupImprintMismatch
  | valueError (msg : String)
  | assertionError
  | overflowError
  | unicodeError
  | indexError (msg : String)
  | runtimeError (msg : String)
  | versionExhausted
  deriving DecidableEq

deriving instance DecidableEq for Except

/-- The exception class ("error kind") of a raised error: two errors are the
same kind exactly when they are instances of the same Python exception
class, message strings notwithstanding. -/
def PyErr.cls : PyErr → ℕ
  | .insufficientData => 0
  | .checksumMismatch _ => 1
  | .groupImprintMismatch => 2
  | .valueError _ => 3
  | .assertionError => 4
  | .overflowError => 5
  | .unicodeError => 6
  | .indexError _ => 7
  | .runtimeError _ => 8
  | .versionExhausted => 9

/-! ## Constants (src/codn/b_cryptoblobs/_20_encdec_part.py and spec §6) -/

def ENCRYPTION_NONCE_LEN : ℕ := 12

def MAC_LEN : ℕ := 16

/-- Modelled from the spec: `Imprint.FULL_LEN`, the serialized imprint
size.  The imprint source is not in the tree; spec §6 fixes FULL_LEN = 32. -/
def FULL_LEN : ℕ := 32

/-- Length of the imprint tag that follows the 12-byte nonce inside the
serialized imprint, so that nonce and tag together occupy FULL_LEN bytes. -/
def IMPRINT_TAG_LEN : ℕ := FULL_LEN - ENCRYPTION_NONCE_LEN

/-- Modelled from the spec: `CLUSTER_META_SIZE` from `codn._common`;
spec §6 fixes it to 60 = FULL_LEN + 12-byte header + 16-byte header MAC. -/
def CLUSTER_META_SIZE : ℕ := FULL_LEN + 12 + MAC_LEN

/-- Modelled from the spec: `MAX_CLUSTER_CONTENT_SIZE = CLUSTER_SIZE −
CLUSTER_META_SIZE` (spec §6).  `CLUSTER_SIZE` itself is kept as a parameter
`cs` throughout: spec §6 both suggests 128·1024 and requires
`MAX_CLUSTER_CONTENT_SIZE ≤ 0x7FFF`, and the code asserts the latter, so the
development is parametric in any cluster size satisfying the assertions. -/
def MAX_CLUSTER_CONTENT_SIZE (cs : ℕ) : ℕ := cs - CLUSTER_META_SIZE

def FAKE_CONTENT_VERSION : ℕ := 0xFFFFFFFF

def CODENAME_LENGTH : ℕ := 24

/-! ## Byte-level primitives -/

/-- Sequential stream-cipher application: byte `i` of the input is XORed
with keystream byte `pos + i`.  ChaCha20 encryption and decryption are both
this operation; the keystream function itself is a parameter of the
embedding. -/
def xorStream (ks : ℕ → ℕ) : ℕ → List ℕ → List ℕ
  | _, [] => []
  | pos, b :: rest => (b ^^^ ks pos) :: xorStream ks (pos + 1) rest

theorem xorStream_length (ks : ℕ → ℕ) (pos : ℕ) (l : List ℕ) :
    (xorStream ks pos l).length = l.length := by
  induction l generalizing pos with
  | nil => rfl
  | cons b rest ih => simp [xorStream, ih]

theorem xorStream_xorStream (ks : ℕ → ℕ) (pos : ℕ) (l : List ℕ) :
    xorStream ks pos (xorStream ks pos l) = l := by
  induction l generalizing pos with
  | nil => rfl
  | cons b rest ih =>
    simp only [xorStream, ih]
    rw [Nat.xor_assoc, Nat.xor_self, Nat.xor_zero]

theorem xorStream_append (ks : ℕ → ℕ) (pos : ℕ) (a b : List ℕ) :
    xorStream ks pos (a ++ b) =
      xorStream ks pos a ++ xorStream ks (pos + a.length) b := by
  induction a generalizing pos with
  | nil => simp [xorStream]
  | cons x rest ih =>
    simp only [List.cons_append, xorStream, List.length_cons]
    rw [show rest.append b = rest ++ b from rfl, ih,
      show pos + (rest.length + 1) = pos + 1 + rest.length by omega]

theorem xorStream_take (ks : ℕ → ℕ) (pos n : ℕ) (l : List ℕ) :
    (xorStream ks pos l).take n = xorStream ks pos (l.take n) := by
  induction l generalizing pos n with
  | nil => simp [xorStream]
  | cons b rest ih =>
    cases n with
    | zero => simp [xorStream]
    | succ m => simp [xorStream, ih]

theorem xorStream_drop (ks : ℕ → ℕ) (pos n : ℕ) (l : List ℕ) :
    (xorStream ks pos l).drop n = xorStream ks (pos + n) (l.drop n) := by
  induction l generalizing pos n with
  | nil => simp [xorStream]
  | cons b rest ih =>
    cases n with
    | zero => simp [xorStream]
    | succ m =>
      simp only [xorStream, List.drop_succ_cons, ih]
      congr 1
      omega

/-! ## Fixed-width big-endian integer codec

Modelled from the spec: `codn.b_cryptoblobs._10_byte_funcs` is not in the
tree; spec §4.A says "Big-endian fixed-width unsigned integers of widths
16/24/32 … Reject out-of-range inputs" (Python `int.to_bytes` raises
`OverflowError` on out-of-range input, `int.from_bytes` is total). -/

/-- The four big-endian base-256 digits of a 32-bit value. -/
def be32 (x : ℕ) : List ℕ :=
  [x / 2 ^ 24 % 256, x / 2 ^ 16 % 256, x / 2 ^ 8 % 256, x % 256]

/-- The two big-endian base-256 digits of a 16-bit value. -/
def be16 (x : ℕ) : List ℕ := [x / 2 ^ 8 % 256, x % 256]

/-- Modelled from the spec: big-endian uint32 encoder, rejecting
out-of-range input. -/
def uint32_to_bytes (x : ℕ) : Except PyErr (List ℕ) :=
  if x < 2 ^ 32 then .ok (be32 x) else .error .overflowError

/-- Modelled from the spec: big-endian uint16 encoder, rejecting
out-of-range input. -/
def uint16_to_bytes (x : ℕ) : Except PyErr (List ℕ) :=
  if x < 2 ^ 16 then .ok (be16 x) else .error .overflowError

/-- Modelled from the spec: big-endian decoder (`int.from_bytes`). -/
def bytes_to_uint32 (data : List ℕ) : ℕ :=
  data.foldl (fun a b => a * 256 + b) 0

/-- Modelled from the spec: big-endian decoder (`int.from_bytes`). -/
def bytes_to_uint16 (data : List ℕ) : ℕ :=
  data.foldl (fun a b => a * 256 + b) 0

theorem uint32_to_bytes_ok {x : ℕ} (h : x < 2 ^ 32) :
    uint32_to_bytes x = .ok (be32 x) := by
  unfold uint32_to_bytes
  rw [if_pos h]

theorem bytes_to_uint32_roundtrip {x : ℕ} (h : x < 2 ^ 32) :
    bytes_to_uint32 (be32 x) = x := by
  simp only [bytes_to_uint32, be32, List.foldl]
  omega

theorem uint16_to_bytes_ok {x : ℕ} (h : x < 2 ^ 16) :
    uint16_to_bytes x = .ok (be16 x) := by
  unfold uint16_to_bytes
  rw [if_pos h]

theorem bytes_to_uint16_roundtrip {x : ℕ} (h : x < 2 ^ 16) :
    bytes_to_uint16 (be16 x) = x := by
  simp only [bytes_to_uint16, be16, List.foldl]
  omega

theorem be32_length (x : ℕ) : (be32 x).length = 4 := rfl

theorem be16_length (x : ℕ) : (be16 x).length = 2 := rfl

theorem bytes_to_uint16_lt (a b : ℕ) (ha : a < 256) (hb : b < 256) :
    bytes_to_uint16 [a, b] < 2 ^ 16 := by
  simp only [bytes_to_uint16, List.foldl]
  omega

/-! ## Bit helpers (src lines 110–130) -/

/-- `get_highest_bit_16` from the source: rejects values above 0xFFFF, else
reports whether bit 15 is set. -/
def get_highest_bit_16 (x : ℕ) : Except PyErr Bool :=
  if x ≤ 0xFFFF then .ok (decide (x &&& 0x8000 ≠ 0)) else .error (.valueError "")

/-- The value computed by `set_highest_bit_16` on in-range input. -/
def set_bit_val (x : ℕ) (value : Bool) : ℕ :=
  if value then x ||| 0x8000 else x &&& 0x7FFF

/-- `set_highest_bit_16` from the source: rejects values above 0xFFFF, else
sets or clears bit 15. -/
def set_highest_bit_16 (x : ℕ) (value : Bool) : Except PyErr ℕ :=
  if x ≤ 0xFFFF then .ok (set_bit_val x value) else .error (.valueError "")

/-- `get_lower15bits` from the source. -/
def get_lower15bits (x : ℕ) : ℕ := x &&& 0x7FFF

theorem land_7FFF_of_le {x : ℕ} (h : x ≤ 0x7FFF) : x &&& 0x7FFF = x := by
  apply Nat.eq_of_testBit_eq
  intro i
  rw [Nat.testBit_land]
  have h15 : (0x7FFF : ℕ) = 2 ^ 15 - 1 := by norm_num
  rw [h15, Nat.testBit_two_pow_sub_one]
  by_cases hi : i < 15
  · simp [hi]
  · have : x < 2 ^ i := by
      calc x < 2 ^ 15 := by omega
        _ ≤ 2 ^ i := Nat.pow_le_pow_right (by norm_num) (by omega)
    simp [Nat.testBit_lt_two_pow this, hi]

theorem lor_8000_land_7FFF {x : ℕ} (h : x ≤ 0x7FFF) :
    (x ||| 0x8000) &&& 0x7FFF = x := by
  apply Nat.eq_of_testBit_eq
  intro i
  rw [Nat.testBit_land, Nat.testBit_lor]
  have h15 : Nat.testBit 0x7FFF i = decide (i < 15) := by
    rw [show (0x7FFF : ℕ) = 2 ^ 15 - 1 by norm_num]
    exact Nat.testBit_two_pow_sub_one 15 i
  rw [h15]
  by_cases hi : i < 15
  · have h8 : Nat.testBit 0x8000 i = false := by
      rw [show (0x8000 : ℕ) = 2 ^ 15 by norm_num]
      exact Nat.testBit_two_pow_of_ne (by omega)
    simp [h8, hi]
  · have : x < 2 ^ i := by
      calc x < 2 ^ 15 := by omega
        _ ≤ 2 ^ i := Nat.pow_le_pow_right (by norm_num) (by omega)
    simp [Nat.testBit_lt_two_pow this, hi]

theorem lor_8000_land_8000_ne {x : ℕ} : (x ||| 0x8000) &&& 0x8000 ≠ 0 := by
  intro hzero
  have hbit : ((x ||| 0x8000) &&& 0x8000).testBit 15 = false := by
    rw [hzero]; simp
  rw [Nat.testBit_land, Nat.testBit_lor] at hbit
  have h8 : Nat.testBit 0x8000 15 = true := by
    rw [show (0x8000 : ℕ) = 2 ^ 15 by norm_num]
    exact Nat.testBit_two_pow_self
  rw [h8] at hbit
  simp at hbit

theorem land_8000_of_le {x : ℕ} (h : x ≤ 0x7FFF) : x &&& 0x8000 = 0 := by
  apply Nat.eq_of_testBit_eq
  intro i
  rw [Nat.testBit_land]
  by_cases hi : i = 15
  · subst hi
    have : x < 2 ^ 15 := by omega
    simp [Nat.testBit_lt_two_pow this]
  · have h8 : Nat.testBit 0x8000 i = false := by
      rw [show (0x8000 : ℕ) = 2 ^ 15 by norm_num]
      exact Nat.testBit_two_pow_of_ne (by omega)
    simp [h8]

theorem lor_8000_le {x : ℕ} (h : x ≤ 0x7FFF) : x ||| 0x8000 ≤ 0xFFFF := by
  have hx : x < 2 ^ 16 := by omega
  have h8 : (0x8000 : ℕ) < 2 ^ 16 := by norm_num
  have := Nat.or_lt_two_pow hx h8
  omega

/-! ## Stream reading (read_or_fail, src/ksf/_51_encryption.py lines 164–168
and the identical helper in codn._common) -/

/-- `read_or_fail(f, n)`: read exactly `n` bytes from position `pos`, raising
`InsufficientData` when the stream is too short. -/
def read_or_fail (f : List ℕ) (pos n : ℕ) : Except PyErr (List ℕ) :=
  if pos + n ≤ f.length then .ok ((f.drop pos).take n)
  else .error .insufficientData

theorem read_or_fail_ok {f : List ℕ} {pos n : ℕ} (h : pos + n ≤ f.length) :
    read_or_fail f pos n = .ok ((f.drop pos).take n) := by
  unfold read_or_fail
  rw [if_pos h]

/-! ## Codename serialization (src lines 133–151) -/

/-- `codename_to_bytes` from the source, with the codename given as its
list of character code points and the random padding generator passed in
explicitly (`rand n` stands for `get_random_bytes(n)`). -/
def codename_to_bytes (codename : List ℕ) (rand : ℕ → List ℕ) :
    Except PyErr (List ℕ) :=
  if 0 ∈ codename then .error (.valueError "Zero character in codename")
  else if ¬ codename.all (fun b => b < 128) then .error .unicodeError
  else if codename.length > CODENAME_LENGTH then .error (.valueError "Too long")
  else if codename.length < CODENAME_LENGTH then
    .ok (codename ++ [0] ++ rand (CODENAME_LENGTH - codename.length - 1))
  else .ok codename

/-- `bytes_to_codename` from the source: the decoded string is the prefix of
`data` before the first NUL byte (`data.partition(b'\0')[0]`), decoded as
ASCII. -/
def bytes_to_codename (data : List ℕ) : Except PyErr (List ℕ) :=
  let pre := data.takeWhile (fun b => b != 0)
  if pre.all (fun b => b < 128) then .ok pre else .error .unicodeError

theorem takeWhile_ne_zero_append (l r : List ℕ) (h : ∀ x ∈ l, x ≠ 0) :
    (l ++ 0 :: r).takeWhile (fun b => b != 0) = l := by
  induction l with
  | nil => simp [List.takeWhile_cons]
  | cons a t ih =>
    have ha : a ≠ 0 := h a (by simp)
    simp only [List.cons_append, List.takeWhile_cons]
    have : (a != 0) = true := by simpa using ha
    rw [this]
    simp only [if_true]
    rw [ih (fun x hx => h x (by simp [hx]))]

theorem takeWhile_ne_zero_eq_self (l : List ℕ) (h : ∀ x ∈ l, x ≠ 0) :
    l.takeWhile (fun b => b != 0) = l := by
  induction l with
  | nil => rfl
  | cons a t ih =>
    have ha : a ≠ 0 := h a (by simp)
    simp only [List.takeWhile_cons]
    have : (a != 0) = true := by simpa using ha
    rw [this]
    simp only [if_true]
    rw [ih (fun x hx => h x (by simp [hx]))]

/-! ## Intro padding (src/ksf/_51_encryption.py lines 77–110) -/

/-- `_IntroPadding.first_byte_to_len` from the source: low four bits of the
first byte (the class is used with modulus 16). -/
def first_byte_to_len (x : ℕ) : ℕ := x &&& 15

/-- `_IntroPadding.gen_bytes` from the source, with the random draws passed
in explicitly: `first_byte` stands for `random.randint(0, 0xFF)` and
`rand n` for `get_fast_random_bytes(n)`.  Note the source appends `length-1`
extra bytes, and only when `length > 1`. -/
def gen_bytes (first_byte : ℕ) (rand : ℕ → List ℕ) : List ℕ :=
  let length := first_byte_to_len first_byte
  let result := [first_byte]
  if length > 1 then result ++ rand (length - 1) else result

/-- `_IntroPadding.skip_in_file` from the source: read one byte at `pos`,
derive the padding length from it, and skip the corresponding number of
bytes; returns the stream position after skipping. -/
def skip_in_file (df : List ℕ) (pos : ℕ) : Except PyErr ℕ :=
  match read_or_fail df pos 1 with
  | .error e => .error e
  | .ok l =>
    let intro_length := first_byte_to_len (l.headD 0)
    if intro_length > 1 then
      match read_or_fail df (pos + 1) (intro_length - 1) with
      | .error e => .error e
      | .ok _ => .ok (pos + 1 + (intro_length - 1))
    else .ok (pos + 1)

/-- C6: the claim states that `IntroPadding` generates the first byte
followed by exactly `first_byte &&& 15` random bytes, a total of
`1 + (first_byte &&& 15)` bytes.  The code disagrees: for `first_byte = 5`
it generates 5 bytes in total (the first byte plus only 4 random bytes),
not the claimed 6; `skip_in_file` mirrors the same arithmetic and consumes
exactly the 5 generated bytes, so generation and skipping stay consistent
with each other while both diverge from the documented length. -/
theorem C6_intro_padding_divergence :
    (gen_bytes 5 (fun n => List.replicate n 0)).length = 5 ∧
    1 + first_byte_to_len 5 = 6 ∧
    skip_in_file (gen_bytes 5 (fun n => List.replicate n 0)) 0 = .ok 5 := by
  decide

/-- C9: for every ASCII codename of length 1..24 without NUL,
`codename_to_bytes` produces exactly CODENAME_LENGTH (24) bytes and
`bytes_to_codename` recovers the codename; `codename_to_bytes` raises an
error for codenames containing NUL or longer than 24 characters. -/
theorem C9_codename_roundtrip (c : List ℕ) (rand : ℕ → List ℕ)
    (hrand : ∀ n, (rand n).length = n)
    (hlen1 : 1 ≤ c.length) (hlen24 : c.length ≤ 24)
    (hascii : ∀ b ∈ c, b < 128) (hnul : 0 ∉ c) :
    (∃ bs, codename_to_bytes c rand = .ok bs ∧ bs.length = CODENAME_LENGTH ∧
      bytes_to_codename bs = .ok c) ∧
    (∀ c2 : List ℕ, 0 ∈ c2 ∨ 24 < c2.length →
      ∃ e, codename_to_bytes c2 rand = .error e) := by
  have hall : c.all (fun b => b < 128) = true := by
    rw [List.all_eq_true]
    intro x hx
    exact decide_eq_true (hascii x hx)
  have hne : ∀ x ∈ c, x ≠ 0 := by
    intro x hx h0
    exact hnul (h0 ▸ hx)
  constructor
  · unfold codename_to_bytes
    rw [if_neg hnul, if_neg (by simp [hall])]
    by_cases h24 : c.length = 24
    · rw [if_neg (by simp [CODENAME_LENGTH]; omega),
        if_neg (by simp [CODENAME_LENGTH]; omega)]
      refine ⟨c, rfl, by simp [CODENAME_LENGTH]; omega, ?_⟩
      unfold bytes_to_codename
      rw [takeWhile_ne_zero_eq_self c hne]
      simp [hall]
    · rw [if_neg (by simp [CODENAME_LENGTH]; omega),
        if_pos (by simp [CODENAME_LENGTH]; omega)]
      refine ⟨_, rfl, ?_, ?_⟩
      · simp [CODENAME_LENGTH, hrand]
        omega
      · unfold bytes_to_codename
        have hassoc : c ++ [0] ++ rand (CODENAME_LENGTH - c.length - 1) =
            c ++ 0 :: rand (CODENAME_LENGTH - c.length - 1) := by simp
      
        rw [hassoc, takeWhile_ne_zero_append c _ hne]
        simp [hall]
  · intro c2 hc2
    by_cases h0 : 0 ∈ c2
    · refine ⟨.valueError "Zero character in codename", ?_⟩
      unfold codename_to_bytes
      rw [if_pos h0]
    · have hlen : 24 < c2.length := by tauto
      by_cases hall2 : c2.all (fun b => b < 128) = true
      · refine ⟨.valueError "Too long", ?_⟩
        unfold codename_to_bytes
        rw [if_neg h0, if_neg (by simp [hall2]),
          if_pos (by simp [CODENAME_LENGTH]; omega)]
      · refine ⟨.unicodeError, ?_⟩
        unfold codename_to_bytes
        rw [if_neg h0, if_pos (by simp [hall2])]

/-- Witness for C9 at the concrete codename "a" (code point 97) with a
concrete padding generator. -/
theorem C9_codename_roundtrip_witness :
    (∀ n : ℕ, (List.replicate n 1).length = n) ∧
    ((∃ bs, codename_to_bytes [97] (fun n => List.replicate n 1) = .ok bs ∧
        bs.length = CODENAME_LENGTH ∧ bytes_to_codename bs = .ok [97]) ∧
      (∀ c2 : List ℕ, 0 ∈ c2 ∨ 24 < c2.length →
        ∃ e, codename_to_bytes c2 (fun n => List.replicate n 1) = .error e)) :=
  ⟨fun n => by simp,
    C9_codename_roundtrip [97] (fun n => List.replicate n 1)
      (fun n => by simp) (by decide) (by decide) (by decide) (by decide)⟩

/-- C10: the empty codename is accepted by `codename_to_bytes` without a
validation error, yielding a 24-byte block that starts with NUL, and
`bytes_to_codename` decodes that block back to the empty string. -/
theorem C10_empty_codename (rand : ℕ → List ℕ)
    (hrand : ∀ n, (rand n).length = n) :
    codename_to_bytes [] rand = .ok (0 :: rand 23) ∧
    (0 :: rand 23).length = CODENAME_LENGTH ∧
    bytes_to_codename (0 :: rand 23) = .ok [] := by
  refine ⟨?_, by simp [hrand, CODENAME_LENGTH], ?_⟩
  · unfold codename_to_bytes
    rw [if_neg (by simp), if_neg (by simp), if_neg (by simp [CODENAME_LENGTH]),
      if_pos (by simp [CODENAME_LENGTH])]
    simp [CODENAME_LENGTH]
  · unfold bytes_to_codename
    simp [List.takeWhile_cons]

/-- Witness for C10 with a concrete padding generator. -/
theorem C10_empty_codename_witness :
    (∀ n : ℕ, (List.replicate n 7).length = n) ∧
    (codename_to_bytes [] (fun n => List.replicate n 7) =
        .ok (0 :: List.replicate 23 7) ∧
      (0 :: List.replicate 23 7).length = CODENAME_LENGTH ∧
      bytes_to_codename (0 :: List.replicate 23 7) = .ok []) :=
  ⟨fun n => by simp,
    C10_empty_codename (fun n => List.replicate n 7) (fun n => by simp)⟩

/-! ## Cryptographic primitives and keys -/

/-- A codename key, as its 32 raw bytes (`CodenameKey.as_bytes`).  The KDF
producing it lives outside this tree and is a parameter where needed. -/
abbrev CodenameKey := List ℕ

/-- The cryptographic primitives consumed by the blob layer, as parameters
of the embedding: `keystream key nonce i` is byte `i` of the ChaCha20
keystream for `(key, nonce)`; `blake2s128` is the 16-byte BLAKE2s-128
digest; `imprintTag key nonce` is the imprint tag that follows the nonce in
a serialized imprint (spec §3 derives it from BLAKE2s-128 over
key‖nonce); `crc32` is the CRC-32 checksum. -/
structure CryptoPrimitives where
  keystream : CodenameKey → List ℕ → ℕ → ℕ
  blake2s128 : List ℕ → List ℕ
  imprintTag : CodenameKey → List ℕ → List ℕ
  crc32 : List ℕ → ℕ

/-- Output-shape conditions satisfied by the real primitives: BLAKE2s-128
digests are 16 bytes, imprint tags fill the imprint after the nonce, and
CRC-32 values fit an unsigned 32-bit integer. -/
def CryptoPrimitives.WF (cp : CryptoPrimitives) : Prop :=
  (∀ x, (cp.blake2s128 x).length = MAC_LEN) ∧
  (∀ k n, (cp.imprintTag k n).length = IMPRINT_TAG_LEN) ∧
  (∀ x, cp.crc32 x < 2 ^ 32)

/-! ## Imprint (codn.a_base._20_imprint is not in the tree) -/

/-- Modelled from the spec: a serialized imprint is the 12-byte random
nonce followed by the tag derived from (key, nonce) (spec §3). -/
def imprint_bytes (cp : CryptoPrimitives) (k : CodenameKey)
    (nonce : List ℕ) : List ℕ :=
  nonce ++ cp.imprintTag k nonce

/-- Modelled from the spec: `Imprint.bytes_to_nonce` extracts the 12-byte
nonce embedded at the start of a serialized imprint. -/
def bytes_to_nonce (b : List ℕ) : List ℕ := b.take ENCRYPTION_NONCE_LEN

/-- Modelled from the spec: `pk_matches_imprint_bytes(k, b)` re-derives the
tag from `k` and the nonce embedded in `b` and compares it with the tag
stored in `b` (spec §3, §4.C). -/
def pk_matches_imprint_bytes (cp : CryptoPrimitives) (k : CodenameKey)
    (b : List ℕ) : Bool :=
  decide (b.drop ENCRYPTION_NONCE_LEN = cp.imprintTag k (bytes_to_nonce b))

/-! ## Cluster encryption (class Encrypt, src lines 157–397) -/

/-- The validated fields of an `Encrypt` instance. -/
structure Encrypt where
  cnk : CodenameKey
  data_version : ℕ
  target_size : ℕ
  part_idx : ℕ
  parts_len : ℕ
  part_size : Option ℕ
  deriving DecidableEq

/-- `Encrypt.__init__` from the source.  The two duplicated range checks at
lines 197–205 are unreachable given the checks at lines 180–183 and are
omitted; the `assert MAX_CLUSTER_CONTENT_SIZE <= 0x7FFF` at line 186 is kept
because the cluster size is a parameter here. -/
def mkEncrypt (cs : ℕ) (cnk : CodenameKey)
    (data_version target_size part_idx parts_len : ℕ)
    (part_size : Option ℕ) : Except PyErr Encrypt :=
  if ¬ part_idx ≤ 0xFF then
    .error (.valueError ("part_idx=" ++ toString part_idx))
  else if ¬ (1 ≤ parts_len ∧ parts_len ≤ 0xFF + 1) then
    .error (.valueError ("parts_len=" ++ toString parts_len))
  else if ¬ MAX_CLUSTER_CONTENT_SIZE cs ≤ 0x7FFF then
    .error .assertionError
  else
    match part_size with
    | some s =>
      if ¬ s ≤ MAX_CLUSTER_CONTENT_SIZE cs then
        .error (.valueError ("part_size=" ++ toString s))
      else .ok ⟨cnk, data_version, target_size, part_idx, parts_len, some s⟩
    | none =>
      if ¬ (part_idx = 0 ∧ parts_len = 1) then
        .error (.valueError "part_size is not specified")
      else .ok ⟨cnk, data_version, target_size, part_idx, parts_len, none⟩

/-- `Encrypt.io_to_io` from the source.  `source = none` encodes a decoy
("fake") cluster, `source = some p` a real part read from a stream holding
`p` at position 0.  `nonce` stands for the random imprint nonce, `fakeCrc`
for the 4 random bytes used as a decoy's CRC field, and `pad n` for the
`get_random_bytes(n)` padding.  The redundant asserts at lines 318–320
always hold and are omitted; the position asserts at lines 360 and 386
are kept as the `CLUSTER_META_SIZE` length check. -/
def io_to_io (cp : CryptoPrimitives) (e : Encrypt) (source : Option (List ℕ))
    (nonce fakeCrc : List ℕ) (pad : ℕ → List ℕ) : Except PyErr (List ℕ) := do
  let content_ver_bytes ← uint32_to_bytes
    (match source with
      | none => FAKE_CONTENT_VERSION
      | some _ => e.data_version)
  let part_size ←
    match e.part_size, source with
    | some s, _ => Except.ok s
    | none, none => Except.ok 0
    | none, some p =>
      if e.parts_len = 1 ∧ e.part_idx = 0 then Except.ok p.length
      else Except.error PyErr.assertionError
  if get_lower15bits part_size ≠ part_size then Except.error PyErr.assertionError
  else do
    let is_last := decide (e.part_idx = e.parts_len - 1)
    let part_is_last_and_size ← set_highest_bit_16 part_size is_last
    let bodyAndCrc ←
      match source with
      | none => Except.ok ((none : Option (List ℕ)), fakeCrc)
      | some p => do
        let body ← read_or_fail p 0 part_size
        let crcb ← uint32_to_bytes (cp.crc32 body)
        Except.ok (some body, crcb)
    let part_idx_bytes ← uint16_to_bytes e.part_idx
    let part_size_bytes ← uint16_to_bytes part_is_last_and_size
    if nonce.length ≠ ENCRYPTION_NONCE_LEN then
      Except.error (PyErr.valueError "Unexpected nonce length")
    else do
      let ks := cp.keystream e.cnk nonce
      let header_data :=
        bodyAndCrc.2 ++ part_idx_bytes ++ part_size_bytes ++ content_ver_bytes
      let afterMeta := imprint_bytes cp e.cnk nonce ++ xorStream ks 0 header_data
        ++ xorStream ks header_data.length (cp.blake2s128 header_data)
      if afterMeta.length ≠ CLUSTER_META_SIZE then Except.error PyErr.assertionError
      else do
        let withBody :=
          match bodyAndCrc.1 with
          | none => afterMeta
          | some body => afterMeta ++ xorStream ks
              (header_data.length + (cp.blake2s128 header_data).length) body
        if e.target_size < withBody.length then Except.error PyErr.assertionError
        else Except.ok (withBody ++ pad (e.target_size - withBody.length))

/-! ## Cluster decryption (class DecryptedIO, src lines 421–661) -/

/-- The decoded cluster header (class Header, src lines 92–100). -/
structure Header where
  content_crc32 : ℕ
  is_last_part : Bool
  data_version : ℕ
  part_idx : ℕ
  part_size : ℕ
  deriving DecidableEq

/-- `DecryptedIO.imprint_a_bytes`: the first FULL_LEN bytes of the source. -/
def imprint_a_bytes (src : List ℕ) : Except PyErr (List ℕ) :=
  read_or_fail src 0 FULL_LEN

/-- `DecryptedIO.belongs_to_namegroup`: reads and interprets IMPRINT_A,
catching `InsufficientData` (the only exception `read_or_fail` raises) and
reporting `False` in that case. -/
def belongs_to_namegroup (cp : CryptoPrimitives) (fpk : CodenameKey)
    (src : List ℕ) : Bool :=
  match imprint_a_bytes src with
  | .ok b => pk_matches_imprint_bytes cp fpk b
  | .error _ => false

/-- `DecryptedIO.__read_and_decrypt` specialised to this pure embedding:
read `n` bytes at stream position `spos` and decrypt them with keystream
bytes starting at cipher position `cpos`. -/
def read_and_decrypt (ks : ℕ → ℕ) (src : List ℕ) (spos cpos n : ℕ) :
    Except PyErr (List ℕ) :=
  (read_or_fail src spos n).map (xorStream ks cpos)

/-- The keystream of the `Cryptographer` that `DecryptedIO.__read_header`
constructs: keyed by `fpk` and the nonce embedded in the source's imprint. -/
def source_key_stream (cp : CryptoPrimitives) (fpk : CodenameKey)
    (src : List ℕ) : ℕ → ℕ :=
  cp.keystream fpk (bytes_to_nonce (src.take FULL_LEN))

/-- `DecryptedIO.header` / `DecryptedIO.__read_header` from the source: the
imprint must match, then the 12 header bytes and the 16-byte header MAC are
read and decrypted sequentially, the MAC is recomputed and compared, and the
header fields are decoded. -/
def read_header (cp : CryptoPrimitives) (fpk : CodenameKey) (src : List ℕ) :
    Except PyErr Header :=
  if ¬ belongs_to_namegroup cp fpk src then .error .groupImprintMismatch
  else do
    let body_crc32_data ←
      read_and_decrypt (source_key_stream cp fpk src) src FULL_LEN 0 4
    let part_idx_data ←
      read_and_decrypt (source_key_stream cp fpk src) src (FULL_LEN + 4) 4 2
    let part_size_data ←
      read_and_decrypt (source_key_stream cp fpk src) src (FULL_LEN + 6) 6 2
    let last_and_size := bytes_to_uint16 part_size_data
    let part_size := get_lower15bits last_and_size
    let is_last ← get_highest_bit_16 last_and_size
    let content_version_data ←
      read_and_decrypt (source_key_stream cp fpk src) src (FULL_LEN + 8) 8 4
    let header_checksum ←
      read_and_decrypt (source_key_stream cp fpk src) src (FULL_LEN + 12) 12
        MAC_LEN
    let header_data :=
      body_crc32_data ++ part_idx_data ++ part_size_data ++ content_version_data
    if cp.blake2s128 header_data ≠ header_checksum then
      Except.error (PyErr.checksumMismatch "Header checksum mismatch.")
    else
      Except.ok ⟨bytes_to_uint32 body_crc32_data, is_last,
        bytes_to_uint32 content_version_data, bytes_to_uint16 part_idx_data,
        part_size⟩

/-- `DecryptedIO.read_data` from the source: after the header, read and
decrypt exactly `part_size` body bytes (stream position CLUSTER_META_SIZE,
cipher position 28) and verify their CRC-32 against the header. -/
def read_data (cp : CryptoPrimitives) (fpk : CodenameKey) (src : List ℕ) :
    Except PyErr (List ℕ) := do
  let h ← read_header cp fpk src
  let body ← read_and_decrypt (source_key_stream cp fpk src) src
    CLUSTER_META_SIZE 28 h.part_size
  if cp.crc32 body ≠ h.content_crc32 then
    Except.error (PyErr.checksumMismatch "Body CRC mismatch.")
  else Except.ok body

/-- C8: on a source shorter than the imprint length, `belongs_to_namegroup`
evaluates to False; the `InsufficientData` raised by the imprint read is
caught inside the property, so no exception escapes. -/
theorem C8_short_input_belongs_false (cp : CryptoPrimitives)
    (fpk : CodenameKey) (src : List ℕ) (h : src.length < FULL_LEN) :
    belongs_to_namegroup cp fpk src = false := by
  unfold belongs_to_namegroup imprint_a_bytes read_or_fail
  rw [if_neg (by omega)]

/-- Witness for C8 at a concrete 3-byte source. -/
theorem C8_short_input_belongs_false_witness :
    ([1, 2, 3] : List ℕ).length < FULL_LEN ∧
    belongs_to_namegroup
      ⟨fun _ _ _ => 0, fun _ => [], fun _ _ => [], fun _ => 0⟩
      [9] [1, 2, 3] = false :=
  ⟨by decide,
    C8_short_input_belongs_false
      ⟨fun _ _ _ => 0, fun _ => [], fun _ _ => [], fun _ => 0⟩
      [9] [1, 2, 3] (by decide)⟩

/-! ## Slice lemmas for decoding encoded clusters -/

theorem take_len_append {α : Type} (a b : List α) {n : ℕ} (h : a.length = n) :
    (a ++ b).take n = a := by
  rw [← h, List.take_left]

theorem drop_len_append {α : Type} (a b : List α) {n : ℕ} (h : a.length = n) :
    (a ++ b).drop n = b := by
  rw [← h, List.drop_left]

theorem drop_append_exact {α : Type} (a b : List α) (n k : ℕ)
    (h : a.length = n) : (a ++ b).drop (n + k) = b.drop k := by
  rw [List.drop_append_eq_append_drop]
  rw [List.drop_eq_nil_of_le (by omega)]
  rw [show n + k - a.length = k by omega]
  rfl

/-- Reading `n` bytes at stream offset `off` inside an encrypted segment
that starts at stream position `pre.length` and cipher position `c0`, and
decrypting them at cipher position `c0 + off`, recovers the corresponding
plaintext slice. -/
theorem read_and_decrypt_inside (ks : ℕ → ℕ) (pre data rest : List ℕ)
    (c0 off n spos cpos : ℕ)
    (hspos : spos = pre.length + off) (hcpos : cpos = c0 + off)
    (hoff : off + n ≤ data.length) :
    read_and_decrypt ks (pre ++ xorStream ks c0 data ++ rest) spos cpos n =
      .ok ((data.drop off).take n) := by
  subst hspos
  subst hcpos
  unfold read_and_decrypt
  rw [List.append_assoc]
  have hlen : pre.length + off + n ≤
      (pre ++ (xorStream ks c0 data ++ rest)).length := by
    simp [xorStream_length]
    omega
  rw [read_or_fail_ok hlen,
    drop_append_exact pre (xorStream ks c0 data ++ rest) pre.length off rfl,
    List.drop_append_eq_append_drop, xorStream_drop,
    show off - (xorStream ks c0 data).length = 0 by
      rw [xorStream_length]; omega,
    List.drop_zero, List.take_append_eq_append_take,
    show n - (xorStream ks (c0 + off) (data.drop off)).length = 0 by
      rw [xorStream_length, List.length_drop]; omega,
    List.take_zero, List.append_nil, xorStream_take]
  show Except.ok (xorStream ks (c0 + off) (xorStream ks (c0 + off)
    ((data.drop off).take n))) = _
  rw [xorStream_xorStream]

/-- A list of length 12 equals the concatenation of its 4-2-2-4 slices. -/
theorem split_4_2_2_4 (l : List ℕ) (h : l.length = 12) :
    l.take 4 ++ ((l.drop 4).take 2 ++ ((l.drop 6).take 2 ++
      (l.drop 8).take 4)) = l := by
  have h1 : l.take 6 = l.take 4 ++ (l.drop 4).take 2 := by
    rw [← List.take_add]
  have h2 : l.take 8 = l.take 6 ++ (l.drop 6).take 2 := by
    rw [← List.take_add]
  have h3 : l.take 12 = l.take 8 ++ (l.drop 8).take 4 := by
    rw [← List.take_add]
  have h4 : l.take 12 = l := by
    rw [← h, List.take_length]
  conv_rhs => rw [← h4, h3, h2, h1]
  simp [List.append_assoc]

/-- The byte layout produced by `Encrypt.io_to_io`: imprint, encrypted
12-byte header, encrypted header MAC, the already-encrypted body bytes
(empty for decoys), and trailing padding.  Used as a proof-side
abbreviation. -/
def clusterShape (cp : CryptoPrimitives) (k : CodenameKey)
    (nonce hdr bodyEnc padBytes : List ℕ) : List ℕ :=
  imprint_bytes cp k nonce ++ xorStream (cp.keystream k nonce) 0 hdr ++
    xorStream (cp.keystream k nonce) hdr.length (cp.blake2s128 hdr) ++
    bodyEnc ++ padBytes

theorem imprint_bytes_length (cp : CryptoPrimitives) (k : CodenameKey)
    (nonce : List ℕ) (hnonce : nonce.length = ENCRYPTION_NONCE_LEN)
    (htag : (cp.imprintTag k nonce).length = IMPRINT_TAG_LEN) :
    (imprint_bytes cp k nonce).length = FULL_LEN := by
  simp only [imprint_bytes, List.length_append, hnonce, htag,
    ENCRYPTION_NONCE_LEN, IMPRINT_TAG_LEN, FULL_LEN]

theorem clusterShape_take_imprint (cp : CryptoPrimitives) (k : CodenameKey)
    (nonce hdr bodyEnc padBytes : List ℕ)
    (hnonce : nonce.length = ENCRYPTION_NONCE_LEN)
    (htag : (cp.imprintTag k nonce).length = IMPRINT_TAG_LEN) :
    (clusterShape cp k nonce hdr bodyEnc padBytes).take FULL_LEN =
      imprint_bytes cp k nonce := by
  unfold clusterShape
  rw [List.append_assoc, List.append_assoc, List.append_assoc]
  exact take_len_append _ _ (imprint_bytes_length cp k nonce hnonce htag)

theorem belongs_clusterShape (cp : CryptoPrimitives) (k : CodenameKey)
    (nonce hdr bodyEnc padBytes : List ℕ)
    (hnonce : nonce.length = ENCRYPTION_NONCE_LEN)
    (htag : (cp.imprintTag k nonce).length = IMPRINT_TAG_LEN) :
    belongs_to_namegroup cp k (clusterShape cp k nonce hdr bodyEnc padBytes) =
      true := by
  unfold belongs_to_namegroup imprint_a_bytes
  have hlen : 0 + FULL_LEN ≤
      (clusterShape cp k nonce hdr bodyEnc padBytes).length := by
    unfold clusterShape
    simp only [List.length_append, imprint_bytes, hnonce, htag,
      ENCRYPTION_NONCE_LEN, IMPRINT_TAG_LEN, FULL_LEN]
    omega
  rw [read_or_fail_ok hlen, List.drop_zero,
    clusterShape_take_imprint cp k nonce hdr bodyEnc padBytes hnonce htag]
  show pk_matches_imprint_bytes cp k (imprint_bytes cp k nonce) = true
  unfold pk_matches_imprint_bytes bytes_to_nonce imprint_bytes
  rw [drop_len_append nonce _ hnonce, take_len_append nonce _ hnonce]
  simp

theorem nonce_clusterShape (cp : CryptoPrimitives) (k : CodenameKey)
    (nonce hdr bodyEnc padBytes : List ℕ)
    (hnonce : nonce.length = ENCRYPTION_NONCE_LEN)
    (htag : (cp.imprintTag k nonce).length = IMPRINT_TAG_LEN) :
    bytes_to_nonce
      ((clusterShape cp k nonce hdr bodyEnc padBytes).take FULL_LEN) =
      nonce := by
  rw [clusterShape_take_imprint cp k nonce hdr bodyEnc padBytes hnonce htag]
  unfold bytes_to_nonce imprint_bytes
  exact take_len_append nonce _ hnonce

theorem except_bind_ok {ε α β : Type} (v : α) (f : α → Except ε β) :
    (Except.ok v >>= f : Except ε β) = f v := rfl

/-- Decoding the header of a well-shaped encoded cluster succeeds and
recovers the header fields from the 12 plaintext header bytes. -/
theorem read_header_clusterShape (cp : CryptoPrimitives) (k : CodenameKey)
    (nonce hdr bodyEnc padBytes : List ℕ)
    (hnonce : nonce.length = ENCRYPTION_NONCE_LEN)
    (htag : (cp.imprintTag k nonce).length = IMPRINT_TAG_LEN)
    (hb2s : (cp.blake2s128 hdr).length = MAC_LEN)
    (hhdr : hdr.length = 12)
    (hsize : bytes_to_uint16 ((hdr.drop 6).take 2) ≤ 0xFFFF) :
    read_header cp k (clusterShape cp k nonce hdr bodyEnc padBytes) =
      .ok ⟨bytes_to_uint32 (hdr.take 4),
        decide (bytes_to_uint16 ((hdr.drop 6).take 2) &&& 0x8000 ≠ 0),
        bytes_to_uint32 ((hdr.drop 8).take 4),
        bytes_to_uint16 ((hdr.drop 4).take 2),
        get_lower15bits (bytes_to_uint16 ((hdr.drop 6).take 2))⟩ := by
  have himp := imprint_bytes_length cp k nonce hnonce htag
  have hks : source_key_stream cp k
      (clusterShape cp k nonce hdr bodyEnc padBytes) =
      cp.keystream k nonce := by
    unfold source_key_stream
    rw [nonce_clusterShape cp k nonce hdr bodyEnc padBytes hnonce htag]
  have hg1 : clusterShape cp k nonce hdr bodyEnc padBytes =
      imprint_bytes cp k nonce ++ xorStream (cp.keystream k nonce) 0 hdr ++
        (xorStream (cp.keystream k nonce) hdr.length (cp.blake2s128 hdr) ++
          (bodyEnc ++ padBytes)) := by
    unfold clusterShape
    simp [List.append_assoc]
  have hg2 : clusterShape cp k nonce hdr bodyEnc padBytes =
      (imprint_bytes cp k nonce ++ xorStream (cp.keystream k nonce) 0 hdr) ++
        xorStream (cp.keystream k nonce) hdr.length (cp.blake2s128 hdr) ++
        (bodyEnc ++ padBytes) := by
    unfold clusterShape
    simp [List.append_assoc]
  have e1 : read_and_decrypt (cp.keystream k nonce)
      (clusterShape cp k nonce hdr bodyEnc padBytes) FULL_LEN 0 4 =
      .ok (hdr.take 4) := by
    rw [hg1]
    have := read_and_decrypt_inside (cp.keystream k nonce)
      (imprint_bytes cp k nonce) hdr
      (xorStream (cp.keystream k nonce) hdr.length (cp.blake2s128 hdr) ++
        (bodyEnc ++ padBytes)) 0 0 4 FULL_LEN 0
      (by omega) (by omega) (by omega)
    simpa using this
  have e2 : read_and_decrypt (cp.keystream k nonce)
      (clusterShape cp k nonce hdr bodyEnc padBytes) (FULL_LEN + 4) 4 2 =
      .ok ((hdr.drop 4).take 2) := by
    rw [hg1]
    exact read_and_decrypt_inside (cp.keystream k nonce)
      (imprint_bytes cp k nonce) hdr
      (xorStream (cp.keystream k nonce) hdr.length (cp.blake2s128 hdr) ++
        (bodyEnc ++ padBytes)) 0 4 2 (FULL_LEN + 4) 4
      (by omega) (by omega) (by omega)
  have e3 : read_and_decrypt (cp.keystream k nonce)
      (clusterShape cp k nonce hdr bodyEnc padBytes) (FULL_LEN + 6) 6 2 =
      .ok ((hdr.drop 6).take 2) := by
    rw [hg1]
    exact read_and_decrypt_inside (cp.keystream k nonce)
      (imprint_bytes cp k nonce) hdr
      (xorStream (cp.keystream k nonce) hdr.length (cp.blake2s128 hdr) ++
        (bodyEnc ++ padBytes)) 0 6 2 (FULL_LEN + 6) 6
      (by omega) (by omega) (by omega)
  have e4 : read_and_decrypt (cp.keystream k nonce)
      (clusterShape cp k nonce hdr bodyEnc padBytes) (FULL_LEN + 8) 8 4 =
      .ok ((hdr.drop 8).take 4) := by
    rw [hg1]
    exact read_and_decrypt_inside (cp.keystream k nonce)
      (imprint_bytes cp k nonce) hdr
      (xorStream (cp.keystream k nonce) hdr.length (cp.blake2s128 hdr) ++
        (bodyEnc ++ padBytes)) 0 8 4 (FULL_LEN + 8) 8
      (by omega) (by omega) (by omega)
  have hpre2 : (imprint_bytes cp k nonce ++
      xorStream (cp.keystream k nonce) 0 hdr).length = FULL_LEN + 12 := by
    simp [xorStream_length, himp, hhdr]
  have e5 : read_and_decrypt (cp.keystream k nonce)
      (clusterShape cp k nonce hdr bodyEnc padBytes) (FULL_LEN + 12) 12
      MAC_LEN = .ok (cp.blake2s128 hdr) := by
    rw [hg2]
    have := read_and_decrypt_inside (cp.keystream k nonce)
      (imprint_bytes cp k nonce ++ xorStream (cp.keystream k nonce) 0 hdr)
      (cp.blake2s128 hdr) (bodyEnc ++ padBytes) hdr.length 0 MAC_LEN
      (FULL_LEN + 12) 12 (by omega) (by omega) (by omega)
    rw [List.drop_zero,
      show (cp.blake2s128 hdr).take MAC_LEN = cp.blake2s128 hdr from by
        rw [← hb2s, List.take_length]] at this
    exact this
  have e6 : get_highest_bit_16 (bytes_to_uint16 ((hdr.drop 6).take 2)) =
      .ok (decide (bytes_to_uint16 ((hdr.drop 6).take 2) &&& 0x8000 ≠ 0)) := by
    unfold get_highest_bit_16
    rw [if_pos hsize]
  have hsplit : ((hdr.take 4 ++ (hdr.drop 4).take 2) ++ (hdr.drop 6).take 2)
      ++ (hdr.drop 8).take 4 = hdr := by
    rw [List.append_assoc, List.append_assoc]
    exact split_4_2_2_4 hdr hhdr
  unfold read_header
  rw [belongs_clusterShape cp k nonce hdr bodyEnc padBytes hnonce htag]
  rw [if_neg (by simp)]
  simp only [hks, e1, e2, e3, e4, e5, e6, except_bind_ok]
  rw [hsplit, if_neg (by simp)]

theorem set_bit_val_le {x : ℕ} (h : x ≤ 0x7FFF) (b : Bool) :
    set_bit_val x b ≤ 0xFFFF := by
  cases b with
  | false =>
    unfold set_bit_val
    rw [if_neg (by simp), land_7FFF_of_le h]
    omega
  | true =>
    unfold set_bit_val
    rw [if_pos rfl]
    exact lor_8000_le h

theorem set_bit_val_low15 {x : ℕ} (h : x ≤ 0x7FFF) (b : Bool) :
    set_bit_val x b &&& 0x7FFF = x := by
  cases b with
  | false =>
    unfold set_bit_val
    rw [if_neg (by simp), land_7FFF_of_le h, land_7FFF_of_le h]
  | true =>
    unfold set_bit_val
    rw [if_pos rfl]
    exact lor_8000_land_7FFF h

theorem set_bit_val_high {x : ℕ} (h : x ≤ 0x7FFF) (b : Bool) :
    decide (set_bit_val x b &&& 0x8000 ≠ 0) = b := by
  cases b with
  | false =>
    unfold set_bit_val
    rw [if_neg (by simp), land_7FFF_of_le h, land_8000_of_le h]
    simp
  | true =>
    unfold set_bit_val
    rw [if_pos rfl]
    simp [lor_8000_land_8000_ne]

/-- Extracting the four header fields back out of a 4-2-2-4 byte header. -/
theorem header_fields_slices (c i s v : List ℕ) (hc : c.length = 4)
    (hi : i.length = 2) (hs : s.length = 2) (hv : v.length = 4) :
    (c ++ i ++ s ++ v).take 4 = c ∧
    ((c ++ i ++ s ++ v).drop 4).take 2 = i ∧
    ((c ++ i ++ s ++ v).drop 6).take 2 = s ∧
    ((c ++ i ++ s ++ v).drop 8).take 4 = v ∧
    (c ++ i ++ s ++ v).length = 12 := by
  refine ⟨?_, ?_, ?_, ?_, by simp [hc, hi, hs, hv]⟩
  · have hr : c ++ i ++ s ++ v = c ++ (i ++ (s ++ v)) := by
      simp [List.append_assoc]
    rw [hr, take_len_append c _ hc]
  · have hr : c ++ i ++ s ++ v = c ++ (i ++ (s ++ v)) := by
      simp [List.append_assoc]
    rw [hr, drop_len_append c _ hc, take_len_append i _ hi]
  · have hr : c ++ i ++ s ++ v = (c ++ i) ++ (s ++ v) := by
      simp [List.append_assoc]
    rw [hr, drop_len_append (c ++ i) _ (by simp [hc, hi]),
      take_len_append s _ hs]
  · have hr : c ++ i ++ s ++ v = (c ++ i ++ s) ++ v := by
      simp [List.append_assoc]
    rw [hr, drop_len_append (c ++ i ++ s) _ (by simp [hc, hi, hs]),
      show v.take 4 = v from by rw [← hv, List.take_length]]

/-- Reading the body of a well-shaped encoded cluster succeeds and verifies
its CRC when the header carries the body's CRC-32 and length. -/
theorem read_data_clusterShape (cp : CryptoPrimitives) (k : CodenameKey)
    (nonce hdr body padBytes : List ℕ)
    (hnonce : nonce.length = ENCRYPTION_NONCE_LEN)
    (htag : (cp.imprintTag k nonce).length = IMPRINT_TAG_LEN)
    (hb2s : (cp.blake2s128 hdr).length = MAC_LEN)
    (hhdr : hdr.length = 12)
    (hsize : bytes_to_uint16 ((hdr.drop 6).take 2) ≤ 0xFFFF)
    (hps : get_lower15bits (bytes_to_uint16 ((hdr.drop 6).take 2)) =
      body.length)
    (hcrc : cp.crc32 body = bytes_to_uint32 (hdr.take 4)) :
    read_data cp k (clusterShape cp k nonce hdr
      (xorStream (cp.keystream k nonce)
        (hdr.length + (cp.blake2s128 hdr).length) body) padBytes) =
      .ok body := by
  have himp := imprint_bytes_length cp k nonce hnonce htag
  have hrh := read_header_clusterShape cp k nonce hdr
    (xorStream (cp.keystream k nonce)
      (hdr.length + (cp.blake2s128 hdr).length) body) padBytes
    hnonce htag hb2s hhdr hsize
  have hks : source_key_stream cp k (clusterShape cp k nonce hdr
      (xorStream (cp.keystream k nonce)
        (hdr.length + (cp.blake2s128 hdr).length) body) padBytes) =
      cp.keystream k nonce := by
    unfold source_key_stream
    rw [nonce_clusterShape cp k nonce hdr _ padBytes hnonce htag]
  have e7 : read_and_decrypt (cp.keystream k nonce)
      (clusterShape cp k nonce hdr
        (xorStream (cp.keystream k nonce)
          (hdr.length + (cp.blake2s128 hdr).length) body) padBytes)
      CLUSTER_META_SIZE 28 body.length = .ok body := by
    unfold clusterShape
    have := read_and_decrypt_inside (cp.keystream k nonce)
      (imprint_bytes cp k nonce ++ xorStream (cp.keystream k nonce) 0 hdr ++
        xorStream (cp.keystream k nonce) hdr.length (cp.blake2s128 hdr))
      body padBytes (hdr.length + (cp.blake2s128 hdr).length) 0 body.length
      CLUSTER_META_SIZE 28
      (by simp [xorStream_length, himp, hhdr, hb2s, CLUSTER_META_SIZE,
        FULL_LEN, MAC_LEN])
      (by rw [hhdr, hb2s]; simp [MAC_LEN])
      (by omega)
    rw [List.drop_zero, List.take_length] at this
    exact this
  unfold read_data
  simp only [hrh, except_bind_ok, hks, hps, e7]
  rw [if_neg (by simp [hcrc])]

/-- The 12 plaintext header bytes of a real (non-decoy) cluster. -/
def real_header_bytes (cp : CryptoPrimitives) (body : List ℕ)
    (idx pls dv : ℕ) : List ℕ :=
  be32 (cp.crc32 body) ++ be16 idx ++ be16 pls ++ be32 dv

/-- The 12 plaintext header bytes of a decoy ("fake") cluster: 4 random CRC
bytes, part index 0, part size 0 with the last-part bit set, and the FAKE
version sentinel. -/
def fake_header_bytes (fakeCrc : List ℕ) : List ℕ :=
  fakeCrc ++ be16 0 ++ be16 (set_bit_val 0 true) ++ be32 FAKE_CONTENT_VERSION

/-- The complete byte string of an encoded real cluster. -/
def encoded_real_cluster (cp : CryptoPrimitives) (cnk : CodenameKey)
    (nonce body : List ℕ) (idx pls dv : ℕ) (padBytes : List ℕ) : List ℕ :=
  clusterShape cp cnk nonce (real_header_bytes cp body idx pls dv)
    (xorStream (cp.keystream cnk nonce)
      ((real_header_bytes cp body idx pls dv).length +
        (cp.blake2s128 (real_header_bytes cp body idx pls dv)).length) body)
    padBytes

/-- The complete byte string of an encoded decoy cluster. -/
def encoded_fake_cluster (cp : CryptoPrimitives) (cnk : CodenameKey)
    (nonce fakeCrc padBytes : List ℕ) : List ℕ :=
  clusterShape cp cnk nonce (fake_header_bytes fakeCrc) [] padBytes

theorem mkEncrypt_ok_some (cs : ℕ) (cnk : CodenameKey)
    (dv target idx plen s : ℕ)
    (hidx : idx ≤ 0xFF) (hplen1 : 1 ≤ plen) (hplen2 : plen ≤ 0x100)
    (hmax : MAX_CLUSTER_CONTENT_SIZE cs ≤ 0x7FFF)
    (hs : s ≤ MAX_CLUSTER_CONTENT_SIZE cs) :
    mkEncrypt cs cnk dv target idx plen (some s) =
      .ok ⟨cnk, dv, target, idx, plen, some s⟩ := by
  unfold mkEncrypt
  rw [if_neg (by omega), if_neg (by simp; omega), if_neg (by omega)]
  show (if ¬ s ≤ MAX_CLUSTER_CONTENT_SIZE cs then _ else _) = _
  rw [if_neg (by omega)]

theorem mkEncrypt_ok_none (cs : ℕ) (cnk : CodenameKey) (dv target : ℕ)
    (hmax : MAX_CLUSTER_CONTENT_SIZE cs ≤ 0x7FFF) :
    mkEncrypt cs cnk dv target 0 1 none =
      .ok ⟨cnk, dv, target, 0, 1, none⟩ := by
  unfold mkEncrypt
  rw [if_neg (by omega), if_neg (by simp), if_neg (by omega)]
  show (if ¬ ((0 : ℕ) = 0 ∧ (1 : ℕ) = 1) then _ else _) = _
  rw [if_neg (by simp)]

/-- Evaluating `Encrypt.io_to_io` on a real part under the success
conditions: the output is exactly the imprint, the encrypted header and
MAC, the encrypted body, and `target - (CLUSTER_META_SIZE + ps)` padding
bytes. -/
theorem io_to_io_real_eq (cp : CryptoPrimitives) (cnk : CodenameKey)
    (dv target idx plen ps : ℕ) (p nonce fakeCrc : List ℕ) (pad : ℕ → List ℕ)
    (hb2s : ∀ x, (cp.blake2s128 x).length = MAC_LEN)
    (htag : ∀ k2 n2, (cp.imprintTag k2 n2).length = IMPRINT_TAG_LEN)
    (hcrcwf : ∀ x, cp.crc32 x < 2 ^ 32)
    (hdv : dv < 2 ^ 32) (hps : ps ≤ 0x7FFF) (hple : ps ≤ p.length)
    (hidx : idx < 2 ^ 16)
    (hnonce : nonce.length = ENCRYPTION_NONCE_LEN)
    (htarget : CLUSTER_META_SIZE + ps ≤ target) :
    io_to_io cp ⟨cnk, dv, target, idx, plen, some ps⟩ (some p) nonce fakeCrc
      pad =
      .ok (encoded_real_cluster cp cnk nonce (p.take ps) idx
        (set_bit_val ps (decide (idx = plen - 1))) dv
        (pad (target - (CLUSTER_META_SIZE + ps)))) := by
  have hfields := header_fields_slices (be32 (cp.crc32 (p.take ps)))
    (be16 idx) (be16 (set_bit_val ps (decide (idx = plen - 1)))) (be32 dv)
    (be32_length _) (be16_length _) (be16_length _) (be32_length _)
  have hhdrlen := hfields.2.2.2.2
  have h1 : uint32_to_bytes dv = .ok (be32 dv) := uint32_to_bytes_ok hdv
  have h2 : read_or_fail p 0 ps = .ok (p.take ps) := by
    rw [read_or_fail_ok (by omega), List.drop_zero]
  have h3 : uint32_to_bytes (cp.crc32 (p.take ps)) =
      .ok (be32 (cp.crc32 (p.take ps))) := uint32_to_bytes_ok (hcrcwf _)
  have h4 : uint16_to_bytes idx = .ok (be16 idx) := uint16_to_bytes_ok hidx
  have h5 : set_highest_bit_16 ps (decide (idx = plen - 1)) =
      .ok (set_bit_val ps (decide (idx = plen - 1))) := by
    unfold set_highest_bit_16
    rw [if_pos (by omega)]
  have h6 : uint16_to_bytes (set_bit_val ps (decide (idx = plen - 1))) =
      .ok (be16 (set_bit_val ps (decide (idx = plen - 1)))) :=
    uint16_to_bytes_ok
      (by have := set_bit_val_le hps (decide (idx = plen - 1)); omega)
  have hland : get_lower15bits ps = ps := land_7FFF_of_le hps
  have hcm : CLUSTER_META_SIZE = 60 := rfl
  unfold io_to_io
  simp only [h1, h2, h3, h4, h5, h6, hland, except_bind_ok, hnonce]
  rw [if_neg (by simp)]
  rw [if_neg (by simp)]
  rw [if_neg (by
    simp only [List.length_append, xorStream_length, hhdrlen,
      hb2s, imprint_bytes, hnonce, htag, ENCRYPTION_NONCE_LEN,
      IMPRINT_TAG_LEN, MAC_LEN, FULL_LEN, CLUSTER_META_SIZE]
    omega)]
  rw [if_neg (by
    simp only [List.length_append, xorStream_length, hhdrlen, hb2s,
      imprint_bytes, hnonce, htag, List.length_take, ENCRYPTION_NONCE_LEN,
      IMPRINT_TAG_LEN, MAC_LEN, FULL_LEN, CLUSTER_META_SIZE]
    omega)]
  unfold encoded_real_cluster clusterShape real_header_bytes
  congr 1
  simp only [List.length_append, xorStream_length, hhdrlen, hb2s,
    imprint_bytes, hnonce, htag, List.length_take, ENCRYPTION_NONCE_LEN,
    IMPRINT_TAG_LEN, MAC_LEN, FULL_LEN, CLUSTER_META_SIZE]
  congr 2
  omega

/-- Evaluating `Encrypt.io_to_io` on a decoy under the success conditions:
the output is the imprint, the encrypted fake header and MAC, no body, and
`target - CLUSTER_META_SIZE` padding bytes. -/
theorem io_to_io_fake_eq (cp : CryptoPrimitives) (cnk : CodenameKey)
    (dv0 target : ℕ) (nonce fakeCrc : List ℕ) (pad : ℕ → List ℕ)
    (hb2s : ∀ x, (cp.blake2s128 x).length = MAC_LEN)
    (htag : ∀ k2 n2, (cp.imprintTag k2 n2).length = IMPRINT_TAG_LEN)
    (hfc : fakeCrc.length = 4)
    (hnonce : nonce.length = ENCRYPTION_NONCE_LEN)
    (htarget : CLUSTER_META_SIZE ≤ target) :
    io_to_io cp ⟨cnk, dv0, target, 0, 1, none⟩ none nonce fakeCrc pad =
      .ok (encoded_fake_cluster cp cnk nonce fakeCrc
        (pad (target - CLUSTER_META_SIZE))) := by
  have hfields := header_fields_slices fakeCrc (be16 0)
    (be16 (set_bit_val 0 true)) (be32 FAKE_CONTENT_VERSION)
    hfc (be16_length _) (be16_length _) (be32_length _)
  have hhdrlen : (fake_header_bytes fakeCrc).length = 12 := by
    unfold fake_header_bytes
    exact hfields.2.2.2.2
  have h1 : uint32_to_bytes FAKE_CONTENT_VERSION =
      .ok (be32 FAKE_CONTENT_VERSION) :=
    uint32_to_bytes_ok (by unfold FAKE_CONTENT_VERSION; omega)
  have h4 : uint16_to_bytes 0 = .ok (be16 0) :=
    uint16_to_bytes_ok (by omega)
  have h5 : set_highest_bit_16 0 true = .ok (set_bit_val 0 true) := by
    unfold set_highest_bit_16
    rw [if_pos (by omega)]
  have h6 : uint16_to_bytes (set_bit_val 0 true) =
      .ok (be16 (set_bit_val 0 true)) :=
    uint16_to_bytes_ok (by have := set_bit_val_le (x := 0) (by omega) true; omega)
  have hland : get_lower15bits 0 = 0 := land_7FFF_of_le (by omega)
  have hcm : CLUSTER_META_SIZE = 60 := rfl
  unfold io_to_io
  simp only [h1, h4, h5, h6, hland, except_bind_ok, hnonce, decide_True]
  rw [if_neg (by simp)]
  rw [if_neg (by simp)]
  rw [if_neg (by
    simp only [List.length_append, xorStream_length, hb2s, imprint_bytes,
      hnonce, htag, hfc, be16_length, be32_length, ENCRYPTION_NONCE_LEN,
      IMPRINT_TAG_LEN, MAC_LEN, FULL_LEN, CLUSTER_META_SIZE]
    omega)]
  rw [if_neg (by
    simp only [List.length_append, xorStream_length, hb2s, imprint_bytes,
      hnonce, htag, hfc, be16_length, be32_length, ENCRYPTION_NONCE_LEN,
      IMPRINT_TAG_LEN, MAC_LEN, FULL_LEN, CLUSTER_META_SIZE]
    omega)]
  unfold encoded_fake_cluster clusterShape fake_header_bytes
  rw [List.append_nil]
  congr 2
  simp only [List.length_append, xorStream_length, hb2s, imprint_bytes,
    hnonce, htag, hfc, be16_length, be32_length, ENCRYPTION_NONCE_LEN,
    IMPRINT_TAG_LEN, MAC_LEN, FULL_LEN, CLUSTER_META_SIZE]

theorem belongs_encoded_real (cp : CryptoPrimitives) (cnk : CodenameKey)
    (nonce body padBytes : List ℕ) (idx pls dv : ℕ)
    (hnonce : nonce.length = ENCRYPTION_NONCE_LEN)
    (htag : (cp.imprintTag cnk nonce).length = IMPRINT_TAG_LEN) :
    belongs_to_namegroup cp cnk
      (encoded_real_cluster cp cnk nonce body idx pls dv padBytes) = true := by
  unfold encoded_real_cluster
  exact belongs_clusterShape cp cnk nonce _ _ padBytes hnonce htag

theorem belongs_encoded_fake (cp : CryptoPrimitives) (cnk : CodenameKey)
    (nonce fakeCrc padBytes : List ℕ)
    (hnonce : nonce.length = ENCRYPTION_NONCE_LEN)
    (htag : (cp.imprintTag cnk nonce).length = IMPRINT_TAG_LEN) :
    belongs_to_namegroup cp cnk
      (encoded_fake_cluster cp cnk nonce fakeCrc padBytes) = true := by
  unfold encoded_fake_cluster
  exact belongs_clusterShape cp cnk nonce _ _ padBytes hnonce htag

/-- A cluster encoded under key `k` does not match a key `k2` whose imprint
tag differs on the cluster's nonce. -/
theorem belongs_clusterShape_other (cp : CryptoPrimitives)
    (k k2 : CodenameKey) (nonce hdr bodyEnc padBytes : List ℕ)
    (hnonce : nonce.length = ENCRYPTION_NONCE_LEN)
    (htag : (cp.imprintTag k nonce).length = IMPRINT_TAG_LEN)
    (hne : cp.imprintTag k2 nonce ≠ cp.imprintTag k nonce) :
    belongs_to_namegroup cp k2
      (clusterShape cp k nonce hdr bodyEnc padBytes) = false := by
  unfold belongs_to_namegroup imprint_a_bytes
  have hlen : 0 + FULL_LEN ≤
      (clusterShape cp k nonce hdr bodyEnc padBytes).length := by
    unfold clusterShape
    simp only [List.length_append, imprint_bytes, hnonce, htag,
      ENCRYPTION_NONCE_LEN, IMPRINT_TAG_LEN, FULL_LEN]
    omega
  rw [read_or_fail_ok hlen, List.drop_zero,
    clusterShape_take_imprint cp k nonce hdr bodyEnc padBytes hnonce htag]
  show pk_matches_imprint_bytes cp k2 (imprint_bytes cp k nonce) = false
  unfold pk_matches_imprint_bytes bytes_to_nonce imprint_bytes
  rw [drop_len_append nonce _ hnonce, take_len_append nonce _ hnonce]
  simp only [decide_eq_false_iff_not]
  intro h
  exact hne h.symm

/-- Header decode of an encoded real cluster recovers the part's CRC, the
last-part flag, the data version, the part index, and the part size. -/
theorem read_header_encoded_real (cp : CryptoPrimitives) (cnk : CodenameKey)
    (nonce body padBytes : List ℕ) (idx ps dv : ℕ) (b : Bool)
    (hb2s : ∀ x, (cp.blake2s128 x).length = MAC_LEN)
    (htag : ∀ k2 n2, (cp.imprintTag k2 n2).length = IMPRINT_TAG_LEN)
    (hcrcwf : ∀ x, cp.crc32 x < 2 ^ 32)
    (hnonce : nonce.length = ENCRYPTION_NONCE_LEN)
    (hdv : dv < 2 ^ 32) (hidx : idx < 2 ^ 16) (hps : ps ≤ 0x7FFF) :
    read_header cp cnk
      (encoded_real_cluster cp cnk nonce body idx (set_bit_val ps b) dv
        padBytes) =
      .ok ⟨cp.crc32 body, b, dv, idx, ps⟩ := by
  have hfields := header_fields_slices (be32 (cp.crc32 body)) (be16 idx)
    (be16 (set_bit_val ps b)) (be32 dv)
    (be32_length _) (be16_length _) (be16_length _) (be32_length _)
  have hsb16 : set_bit_val ps b < 2 ^ 16 := by
    have := set_bit_val_le hps b
    omega
  have hsize : bytes_to_uint16
      (((be32 (cp.crc32 body) ++ be16 idx ++ be16 (set_bit_val ps b) ++
        be32 dv).drop 6).take 2) ≤ 0xFFFF := by
    rw [hfields.2.2.1, bytes_to_uint16_roundtrip hsb16]
    exact set_bit_val_le hps b
  unfold encoded_real_cluster real_header_bytes
  rw [read_header_clusterShape cp cnk nonce _ _ padBytes hnonce (htag _ _)
    (hb2s _) hfields.2.2.2.2 hsize]
  rw [hfields.1, hfields.2.1, hfields.2.2.1, hfields.2.2.2.1,
    bytes_to_uint32_roundtrip (hcrcwf _), bytes_to_uint32_roundtrip hdv,
    bytes_to_uint16_roundtrip hidx, bytes_to_uint16_roundtrip hsb16]
  unfold get_lower15bits
  rw [set_bit_val_high hps b, set_bit_val_low15 hps b]

/-- Body decode of an encoded real cluster returns the part bytes. -/
theorem read_data_encoded_real (cp : CryptoPrimitives) (cnk : CodenameKey)
    (nonce body padBytes : List ℕ) (idx dv : ℕ) (b : Bool)
    (hb2s : ∀ x, (cp.blake2s128 x).length = MAC_LEN)
    (htag : ∀ k2 n2, (cp.imprintTag k2 n2).length = IMPRINT_TAG_LEN)
    (hcrcwf : ∀ x, cp.crc32 x < 2 ^ 32)
    (hnonce : nonce.length = ENCRYPTION_NONCE_LEN)
    (hdv : dv < 2 ^ 32) (hidx : idx < 2 ^ 16)
    (hps : body.length ≤ 0x7FFF) :
    read_data cp cnk
      (encoded_real_cluster cp cnk nonce body idx
        (set_bit_val body.length b) dv padBytes) = .ok body := by
  have hfields := header_fields_slices (be32 (cp.crc32 body)) (be16 idx)
    (be16 (set_bit_val body.length b)) (be32 dv)
    (be32_length _) (be16_length _) (be16_length _) (be32_length _)
  have hsb16 : set_bit_val body.length b < 2 ^ 16 := by
    have := set_bit_val_le hps b
    omega
  have hsize : bytes_to_uint16
      (((be32 (cp.crc32 body) ++ be16 idx ++
        be16 (set_bit_val body.length b) ++ be32 dv).drop 6).take 2) ≤
      0xFFFF := by
    rw [hfields.2.2.1, bytes_to_uint16_roundtrip hsb16]
    exact set_bit_val_le hps b
  unfold encoded_real_cluster real_header_bytes
  apply read_data_clusterShape cp cnk nonce _ body padBytes hnonce (htag _ _)
    (hb2s _) hfields.2.2.2.2 hsize
  · unfold get_lower15bits
    rw [hfields.2.2.1, bytes_to_uint16_roundtrip hsb16,
      set_bit_val_low15 hps b]
  · rw [hfields.1, bytes_to_uint32_roundtrip (hcrcwf _)]

/-- Header decode of an encoded decoy cluster yields part index 0, the
last-part flag, part size 0 and the FAKE version sentinel. -/
theorem read_header_encoded_fake (cp : CryptoPrimitives) (cnk : CodenameKey)
    (nonce fakeCrc padBytes : List ℕ)
    (hb2s : ∀ x, (cp.blake2s128 x).length = MAC_LEN)
    (htag : ∀ k2 n2, (cp.imprintTag k2 n2).length = IMPRINT_TAG_LEN)
    (hfc : fakeCrc.length = 4)
    (hnonce : nonce.length = ENCRYPTION_NONCE_LEN) :
    read_header cp cnk (encoded_fake_cluster cp cnk nonce fakeCrc padBytes) =
      .ok ⟨bytes_to_uint32 fakeCrc, true, FAKE_CONTENT_VERSION, 0, 0⟩ := by
  have hfields := header_fields_slices fakeCrc (be16 0)
    (be16 (set_bit_val 0 true)) (be32 FAKE_CONTENT_VERSION)
    hfc (be16_length _) (be16_length _) (be32_length _)
  have hsb16 : set_bit_val 0 true < 2 ^ 16 := by
    have := set_bit_val_le (x := 0) (by omega) true
    omega
  have hsize : bytes_to_uint16
      (((fakeCrc ++ be16 0 ++ be16 (set_bit_val 0 true) ++
        be32 FAKE_CONTENT_VERSION).drop 6).take 2) ≤ 0xFFFF := by
    rw [hfields.2.2.1, bytes_to_uint16_roundtrip hsb16]
    exact set_bit_val_le (by omega) true
  unfold encoded_fake_cluster fake_header_bytes
  rw [read_header_clusterShape cp cnk nonce _ _ padBytes hnonce (htag _ _)
    (hb2s _) hfields.2.2.2.2 hsize]
  rw [hfields.1, hfields.2.1, hfields.2.2.1, hfields.2.2.2.1,
    bytes_to_uint32_roundtrip (by unfold FAKE_CONTENT_VERSION; omega),
    bytes_to_uint16_roundtrip (x := 0) (by omega),
    bytes_to_uint16_roundtrip hsb16]
  unfold get_lower15bits
  rw [set_bit_val_high (by omega) true, set_bit_val_low15 (by omega) true]

/-- C2: cluster encode/decode round trip.  Encrypting a part `p` with
`Encrypt(cnk, data_version, part_idx, parts_len, |p|)` into an empty output
and decrypting the result with `DecryptedIO(cnk, out)` yields a header with
`content_crc32 = CRC-32(p)`, the same `part_idx`, `part_size = |p|`,
`is_last_part` true iff `part_idx = parts_len - 1`, the same
`data_version`; and `read_data()` returns exactly `p`. -/
theorem C2_cluster_roundtrip (cs : ℕ) (cp : CryptoPrimitives)
    (cnk : CodenameKey) (dv part_idx parts_len : ℕ)
    (p nonce fakeCrc : List ℕ) (pad : ℕ → List ℕ)
    (hwf : cp.WF)
    (hnonce : nonce.length = ENCRYPTION_NONCE_LEN)
    (hdv : dv < 2 ^ 32)
    (hp : p.length ≤ MAX_CLUSTER_CONTENT_SIZE cs)
    (hmax : MAX_CLUSTER_CONTENT_SIZE cs ≤ 0x7FFF)
    (hcs : CLUSTER_META_SIZE ≤ cs)
    (hidxlen : part_idx < parts_len)
    (hlen : parts_len ≤ 0x100) :
    ∃ e out,
      mkEncrypt cs cnk dv cs part_idx parts_len (some p.length) = .ok e ∧
      io_to_io cp e (some p) nonce fakeCrc pad = .ok out ∧
      read_header cp cnk out =
        .ok ⟨cp.crc32 p, decide (part_idx = parts_len - 1), dv, part_idx,
          p.length⟩ ∧
      read_data cp cnk out = .ok p := by
  obtain ⟨hb2s, htag, hcrcwf⟩ := hwf
  have hmaxdef : MAX_CLUSTER_CONTENT_SIZE cs = cs - CLUSTER_META_SIZE := rfl
  have hcm : CLUSTER_META_SIZE = 60 := rfl
  have hidx255 : part_idx ≤ 0xFF := by omega
  have hps : p.length ≤ 0x7FFF := by omega
  have htarget : CLUSTER_META_SIZE + p.length ≤ cs := by omega
  refine ⟨⟨cnk, dv, cs, part_idx, parts_len, some p.length⟩,
    encoded_real_cluster cp cnk nonce p part_idx
      (set_bit_val p.length (decide (part_idx = parts_len - 1))) dv
      (pad (cs - (CLUSTER_META_SIZE + p.length))),
    mkEncrypt_ok_some cs cnk dv cs part_idx parts_len p.length hidx255
      (by omega) hlen hmax hp, ?_, ?_, ?_⟩
  · rw [io_to_io_real_eq cp cnk dv cs part_idx parts_len p.length p nonce
      fakeCrc pad hb2s htag hcrcwf hdv hps (le_refl _) (by omega) hnonce
      htarget, List.take_length]
  · exact read_header_encoded_real cp cnk nonce p
      (pad (cs - (CLUSTER_META_SIZE + p.length))) part_idx p.length dv
      (decide (part_idx = parts_len - 1)) hb2s htag hcrcwf hnonce hdv
      (by omega) hps
  · exact read_data_encoded_real cp cnk nonce p
      (pad (cs - (CLUSTER_META_SIZE + p.length))) part_idx dv
      (decide (part_idx = parts_len - 1)) hb2s htag hcrcwf hnonce hdv
      (by omega) hps

/-- A concrete choice of the cryptographic primitives, used to evaluate the
theorems on explicit inputs: the keystream is all-zero, the hash functions
are length-correct and injective enough to distinguish the test inputs, the
checksum is a byte sum reduced modulo 2^32. -/
def cp_example : CryptoPrimitives where
  keystream := fun _ _ _ => 0
  blake2s128 := fun l => (l ++ List.replicate 16 0).take 16
  imprintTag := fun k n => (k ++ n ++ List.replicate 20 0).take 20
  crc32 := fun l => (l.foldl (fun a b => a + b) 0) % 2 ^ 32

theorem cp_example_wf : cp_example.WF := by
  refine ⟨fun x => ?_, fun k n => ?_, fun x => ?_⟩
  · simp [cp_example, MAC_LEN]
  · simp [cp_example, IMPRINT_TAG_LEN, FULL_LEN, ENCRYPTION_NONCE_LEN]
    omega
  · exact Nat.mod_lt _ (by norm_num)

/-- Witness for C2 at cluster size 64, part [7, 8], index 1 of 2. -/
theorem C2_cluster_roundtrip_witness :
    cp_example.WF ∧
    (∃ e out,
      mkEncrypt 64 [1] 5 64 1 2 (some ([7, 8] : List ℕ).length) = .ok e ∧
      io_to_io cp_example e (some [7, 8]) (List.replicate 12 3) [0, 0, 0, 0]
        (fun n => List.replicate n 9) = .ok out ∧
      read_header cp_example [1] out =
        .ok ⟨cp_example.crc32 [7, 8], decide ((1 : ℕ) = 2 - 1), 5, 1,
          ([7, 8] : List ℕ).length⟩ ∧
      read_data cp_example [1] out = .ok [7, 8]) :=
  ⟨cp_example_wf,
    C2_cluster_roundtrip 64 cp_example [1] 5 1 2 [7, 8]
      (List.replicate 12 3) [0, 0, 0, 0] (fun n => List.replicate n 9)
      cp_example_wf (by simp [ENCRYPTION_NONCE_LEN]) (by norm_num)
      (by decide) (by decide) (by decide) (by decide) (by decide)⟩

theorem encoded_real_cluster_length (cp : CryptoPrimitives)
    (cnk : CodenameKey) (nonce body padBytes : List ℕ) (idx pls dv : ℕ)
    (hb2s : ∀ x, (cp.blake2s128 x).length = MAC_LEN)
    (htag : ∀ k2 n2, (cp.imprintTag k2 n2).length = IMPRINT_TAG_LEN)
    (hnonce : nonce.length = ENCRYPTION_NONCE_LEN) :
    (encoded_real_cluster cp cnk nonce body idx pls dv padBytes).length =
      CLUSTER_META_SIZE + body.length + padBytes.length := by
  simp only [encoded_real_cluster, clusterShape, real_header_bytes,
    List.length_append, xorStream_length, imprint_bytes, hnonce, htag, hb2s,
    be32_length, be16_length, ENCRYPTION_NONCE_LEN, IMPRINT_TAG_LEN, MAC_LEN,
    CLUSTER_META_SIZE, FULL_LEN]

theorem encoded_fake_cluster_length (cp : CryptoPrimitives)
    (cnk : CodenameKey) (nonce fakeCrc padBytes : List ℕ)
    (hb2s : ∀ x, (cp.blake2s128 x).length = MAC_LEN)
    (htag : ∀ k2 n2, (cp.imprintTag k2 n2).length = IMPRINT_TAG_LEN)
    (hfc : fakeCrc.length = 4)
    (hnonce : nonce.length = ENCRYPTION_NONCE_LEN) :
    (encoded_fake_cluster cp cnk nonce fakeCrc padBytes).length =
      CLUSTER_META_SIZE + padBytes.length := by
  simp only [encoded_fake_cluster, clusterShape, fake_header_bytes,
    List.length_append, xorStream_length, imprint_bytes, hnonce, htag, hb2s,
    hfc, be32_length, be16_length, List.length_nil, ENCRYPTION_NONCE_LEN,
    IMPRINT_TAG_LEN, MAC_LEN, CLUSTER_META_SIZE, FULL_LEN]

/-- C3: for every real part of size at most MAX_CLUSTER_CONTENT_SIZE and
every decoy, and every target size at least CLUSTER_META_SIZE plus the part
size, `io_to_io` writes exactly `target` bytes to an empty output stream;
in particular, with the default `target_size = CLUSTER_SIZE` every cluster
occupies exactly CLUSTER_SIZE bytes. -/
theorem C3_encode_exact_size (cs : ℕ) (cp : CryptoPrimitives)
    (cnk : CodenameKey) (dv dv0 target targetf idx plen ps : ℕ)
    (p nonce fakeCrc : List ℕ) (pad : ℕ → List ℕ)
    (hwf : cp.WF) (hpad : ∀ n, (pad n).length = n)
    (hnonce : nonce.length = ENCRYPTION_NONCE_LEN)
    (hfc : fakeCrc.length = 4)
    (hdv : dv < 2 ^ 32)
    (hps : ps ≤ MAX_CLUSTER_CONTENT_SIZE cs)
    (hmax : MAX_CLUSTER_CONTENT_SIZE cs ≤ 0x7FFF)
    (hple : ps ≤ p.length) (hidx : idx < 2 ^ 16)
    (htR : CLUSTER_META_SIZE + ps ≤ target)
    (htF : CLUSTER_META_SIZE ≤ targetf) :
    (∃ out,
      io_to_io cp ⟨cnk, dv, target, idx, plen, some ps⟩ (some p) nonce
        fakeCrc pad = .ok out ∧ out.length = target) ∧
    (∃ outf,
      io_to_io cp ⟨cnk, dv0, targetf, 0, 1, none⟩ none nonce fakeCrc pad =
        .ok outf ∧ outf.length = targetf) := by
  obtain ⟨hb2s, htag, hcrcwf⟩ := hwf
  have hps15 : ps ≤ 0x7FFF := by
    have : MAX_CLUSTER_CONTENT_SIZE cs = cs - CLUSTER_META_SIZE := rfl
    omega
  constructor
  · refine ⟨_, io_to_io_real_eq cp cnk dv target idx plen ps p nonce fakeCrc
      pad hb2s htag hcrcwf hdv hps15 hple hidx hnonce htR, ?_⟩
    rw [encoded_real_cluster_length cp cnk nonce (p.take ps)
      (pad (target - (CLUSTER_META_SIZE + ps))) idx _ dv hb2s htag hnonce]
    rw [List.length_take, hpad]
    omega
  · refine ⟨_, io_to_io_fake_eq cp cnk dv0 targetf nonce fakeCrc pad hb2s
      htag hfc hnonce htF, ?_⟩
    rw [encoded_fake_cluster_length cp cnk nonce fakeCrc
      (pad (targetf - CLUSTER_META_SIZE)) hb2s htag hfc hnonce]
    rw [hpad]
    omega

/-- Witness for C3 at cluster size 64, both a real part and a decoy, with
the default target size (the cluster size itself). -/
theorem C3_encode_exact_size_witness :
    cp_example.WF ∧
    ((∃ out,
      io_to_io cp_example ⟨[1], 5, 64, 0, 1, some 2⟩ (some [7, 8])
        (List.replicate 12 3) [0, 0, 0, 0] (fun n => List.replicate n 9) =
        .ok out ∧ out.length = 64) ∧
    (∃ outf,
      io_to_io cp_example ⟨[1], 0, 64, 0, 1, none⟩ none
        (List.replicate 12 3) [0, 0, 0, 0] (fun n => List.replicate n 9) =
        .ok outf ∧ outf.length = 64)) :=
  ⟨cp_example_wf,
    C3_encode_exact_size 64 cp_example [1] 5 0 64 64 0 1 2 [7, 8]
      (List.replicate 12 3) [0, 0, 0, 0] (fun n => List.replicate n 9)
      cp_example_wf (fun n => by simp) (by simp [ENCRYPTION_NONCE_LEN])
      (by decide) (by norm_num) (by decide) (by decide) (by decide)
      (by decide) (by decide) (by decide)⟩

/-- C5 counterexample: the claim says every part_idx in 0..0xFFFF is
accepted, but constructing the encoder with part_idx = 256 (parts_len =
257, part_size 0) raises ValueError. -/
theorem C5_counterexample_part_idx_256 :
    mkEncrypt 64 [1] 0 64 256 257 (some 0) =
      .error (.valueError "part_idx=256") := by
  decide

/-- C5 amended: the cluster header's part index field is serialized as a
uint16, but `Encrypt.__init__` accepts only part_idx in 0..0xFF (at most
0x100 parts): for every such part_idx, with parts_len = part_idx + 1 and a
valid part_size, construction succeeds without a validation error. -/
theorem C5_amended_part_idx_byte_range (cs : ℕ) (cnk : CodenameKey)
    (dv target idx psize : ℕ)
    (hidx : idx ≤ 0xFF)
    (hmax : MAX_CLUSTER_CONTENT_SIZE cs ≤ 0x7FFF)
    (hpsize : psize ≤ MAX_CLUSTER_CONTENT_SIZE cs) :
    mkEncrypt cs cnk dv target idx (idx + 1) (some psize) =
      .ok ⟨cnk, dv, target, idx, idx + 1, some psize⟩ :=
  mkEncrypt_ok_some cs cnk dv target idx (idx + 1) psize hidx (by omega)
    (by omega) hmax hpsize

/-- Witness for the amended C5 at the largest accepted index, 255. -/
theorem C5_amended_part_idx_byte_range_witness :
    (255 : ℕ) ≤ 0xFF ∧
    mkEncrypt 64 [1] 0 64 255 256 (some 0) =
      .ok ⟨[1], 0, 64, 255, 256, some 0⟩ :=
  ⟨by decide,
    C5_amended_part_idx_byte_range 64 [1] 0 64 255 0 (by decide) (by decide)
      (by decide)⟩

theorem belongs_imprint_prefix (cp : CryptoPrimitives) (k : CodenameKey)
    (nonce rest0 : List ℕ)
    (hnonce : nonce.length = ENCRYPTION_NONCE_LEN)
    (htag : (cp.imprintTag k nonce).length = IMPRINT_TAG_LEN) :
    belongs_to_namegroup cp k (imprint_bytes cp k nonce ++ rest0) = true := by
  unfold belongs_to_namegroup imprint_a_bytes
  have himp := imprint_bytes_length cp k nonce hnonce htag
  have hlen : 0 + FULL_LEN ≤ (imprint_bytes cp k nonce ++ rest0).length := by
    simp only [List.length_append, himp]
    omega
  rw [read_or_fail_ok hlen, List.drop_zero, take_len_append _ _ himp]
  show pk_matches_imprint_bytes cp k (imprint_bytes cp k nonce) = true
  unfold pk_matches_imprint_bytes bytes_to_nonce imprint_bytes
  rw [drop_len_append nonce _ hnonce, take_len_append nonce _ hnonce]
  simp

/-- Header decode fails with the ChecksumMismatch "Header checksum
mismatch." error when the stored 16-byte header MAC differs from the
recomputed BLAKE2s-128 of the decrypted 12 header bytes. -/
theorem read_header_wrong_mac (cp : CryptoPrimitives) (k : CodenameKey)
    (nonce hdr mac rest : List ℕ)
    (hnonce : nonce.length = ENCRYPTION_NONCE_LEN)
    (htag : (cp.imprintTag k nonce).length = IMPRINT_TAG_LEN)
    (hhdr : hdr.length = 12) (hmac : mac.length = MAC_LEN)
    (hsize : bytes_to_uint16 ((hdr.drop 6).take 2) ≤ 0xFFFF)
    (hne : cp.blake2s128 hdr ≠ mac) :
    read_header cp k
      (imprint_bytes cp k nonce ++ xorStream (cp.keystream k nonce) 0 hdr ++
        xorStream (cp.keystream k nonce) 12 mac ++ rest) =
      .error (.checksumMismatch "Header checksum mismatch.") := by
  have himp := imprint_bytes_length cp k nonce hnonce htag
  have hbelongs : belongs_to_namegroup cp k
      (imprint_bytes cp k nonce ++ xorStream (cp.keystream k nonce) 0 hdr ++
        xorStream (cp.keystream k nonce) 12 mac ++ rest) = true := by
    have hg0 : imprint_bytes cp k nonce ++
        xorStream (cp.keystream k nonce) 0 hdr ++
        xorStream (cp.keystream k nonce) 12 mac ++ rest =
        imprint_bytes cp k nonce ++
          (xorStream (cp.keystream k nonce) 0 hdr ++
            (xorStream (cp.keystream k nonce) 12 mac ++ rest)) := by
      simp [List.append_assoc]
    rw [hg0]
    exact belongs_imprint_prefix cp k nonce _ hnonce htag
  have hks : source_key_stream cp k
      (imprint_bytes cp k nonce ++ xorStream (cp.keystream k nonce) 0 hdr ++
        xorStream (cp.keystream k nonce) 12 mac ++ rest) =
      cp.keystream k nonce := by
    unfold source_key_stream
    have hg0 : imprint_bytes cp k nonce ++
        xorStream (cp.keystream k nonce) 0 hdr ++
        xorStream (cp.keystream k nonce) 12 mac ++ rest =
        imprint_bytes cp k nonce ++
          (xorStream (cp.keystream k nonce) 0 hdr ++
            (xorStream (cp.keystream k nonce) 12 mac ++ rest)) := by
      simp [List.append_assoc]
    rw [hg0, take_len_append _ _ himp]
    unfold bytes_to_nonce imprint_bytes
    rw [take_len_append nonce _ hnonce]
  have hg1 : imprint_bytes cp k nonce ++
      xorStream (cp.keystream k nonce) 0 hdr ++
      xorStream (cp.keystream k nonce) 12 mac ++ rest =
      imprint_bytes cp k nonce ++ xorStream (cp.keystream k nonce) 0 hdr ++
        (xorStream (cp.keystream k nonce) 12 mac ++ rest) := by
    simp [List.append_assoc]
  have e1 : read_and_decrypt (cp.keystream k nonce)
      (imprint_bytes cp k nonce ++ xorStream (cp.keystream k nonce) 0 hdr ++
        xorStream (cp.keystream k nonce) 12 mac ++ rest) FULL_LEN 0 4 =
      .ok (hdr.take 4) := by
    rw [hg1]
    have := read_and_decrypt_inside (cp.keystream k nonce)
      (imprint_bytes cp k nonce) hdr
      (xorStream (cp.keystream k nonce) 12 mac ++ rest) 0 0 4 FULL_LEN 0
      (by omega) (by omega) (by omega)
    simpa using this
  have e2 : read_and_decrypt (cp.keystream k nonce)
      (imprint_bytes cp k nonce ++ xorStream (cp.keystream k nonce) 0 hdr ++
        xorStream (cp.keystream k nonce) 12 mac ++ rest) (FULL_LEN + 4) 4 2 =
      .ok ((hdr.drop 4).take 2) := by
    rw [hg1]
    exact read_and_decrypt_inside (cp.keystream k nonce)
      (imprint_bytes cp k nonce) hdr
      (xorStream (cp.keystream k nonce) 12 mac ++ rest) 0 4 2 (FULL_LEN + 4)
      4 (by omega) (by omega) (by omega)
  have e3 : read_and_decrypt (cp.keystream k nonce)
      (imprint_bytes cp k nonce ++ xorStream (cp.keystream k nonce) 0 hdr ++
        xorStream (cp.keystream k nonce) 12 mac ++ rest) (FULL_LEN + 6) 6 2 =
      .ok ((hdr.drop 6).take 2) := by
    rw [hg1]
    exact read_and_decrypt_inside (cp.keystream k nonce)
      (imprint_bytes cp k nonce) hdr
      (xorStream (cp.keystream k nonce) 12 mac ++ rest) 0 6 2 (FULL_LEN + 6)
      6 (by omega) (by omega) (by omega)
  have e4 : read_and_decrypt (cp.keystream k nonce)
      (imprint_bytes cp k nonce ++ xorStream (cp.keystream k nonce) 0 hdr ++
        xorStream (cp.keystream k nonce) 12 mac ++ rest) (FULL_LEN + 8) 8 4 =
      .ok ((hdr.drop 8).take 4) := by
    rw [hg1]
    exact read_and_decrypt_inside (cp.keystream k nonce)
      (imprint_bytes cp k nonce) hdr
      (xorStream (cp.keystream k nonce) 12 mac ++ rest) 0 8 4 (FULL_LEN + 8)
      8 (by omega) (by omega) (by omega)
  have e5 : read_and_decrypt (cp.keystream k nonce)
      (imprint_bytes cp k nonce ++ xorStream (cp.keystream k nonce) 0 hdr ++
        xorStream (cp.keystream k nonce) 12 mac ++ rest) (FULL_LEN + 12) 12
      MAC_LEN = .ok mac := by
    have := read_and_decrypt_inside (cp.keystream k nonce)
      (imprint_bytes cp k nonce ++ xorStream (cp.keystream k nonce) 0 hdr)
      mac rest 12 0 MAC_LEN (FULL_LEN + 12) 12
      (by simp only [List.length_append, xorStream_length, himp, hhdr])
      (by omega) (by omega)
    rw [List.drop_zero,
      show mac.take MAC_LEN = mac from by rw [← hmac, List.take_length]]
      at this
    exact this
  have e6 : get_highest_bit_16 (bytes_to_uint16 ((hdr.drop 6).take 2)) =
      .ok (decide (bytes_to_uint16 ((hdr.drop 6).take 2) &&& 0x8000 ≠ 0)) := by
    unfold get_highest_bit_16
    rw [if_pos hsize]
  have hsplit : ((hdr.take 4 ++ (hdr.drop 4).take 2) ++ (hdr.drop 6).take 2)
      ++ (hdr.drop 8).take 4 = hdr := by
    rw [List.append_assoc, List.append_assoc]
    exact split_4_2_2_4 hdr hhdr
  unfold read_header
  rw [hbelongs]
  rw [if_neg (by simp)]
  simp only [hks, e1, e2, e3, e4, e5, e6, except_bind_ok]
  rw [hsplit, if_pos hne]

/-- Body decode fails with the ChecksumMismatch "Body CRC mismatch." error
when the CRC-32 of the decrypted body differs from the header's
body_crc32 field. -/
theorem read_data_wrong_crc (cp : CryptoPrimitives) (k : CodenameKey)
    (nonce hdr body padBytes : List ℕ)
    (hnonce : nonce.length = ENCRYPTION_NONCE_LEN)
    (htag : (cp.imprintTag k nonce).length = IMPRINT_TAG_LEN)
    (hb2s : (cp.blake2s128 hdr).length = MAC_LEN)
    (hhdr : hdr.length = 12)
    (hsize : bytes_to_uint16 ((hdr.drop 6).take 2) ≤ 0xFFFF)
    (hps : get_lower15bits (bytes_to_uint16 ((hdr.drop 6).take 2)) =
      body.length)
    (hcrcne : cp.crc32 body ≠ bytes_to_uint32 (hdr.take 4)) :
    read_data cp k (clusterShape cp k nonce hdr
      (xorStream (cp.keystream k nonce)
        (hdr.length + (cp.blake2s128 hdr).length) body) padBytes) =
      .error (.checksumMismatch "Body CRC mismatch.") := by
  have himp := imprint_bytes_length cp k nonce hnonce htag
  have hrh := read_header_clusterShape cp k nonce hdr
    (xorStream (cp.keystream k nonce)
      (hdr.length + (cp.blake2s128 hdr).length) body) padBytes
    hnonce htag hb2s hhdr hsize
  have hks : source_key_stream cp k (clusterShape cp k nonce hdr
      (xorStream (cp.keystream k nonce)
        (hdr.length + (cp.blake2s128 hdr).length) body) padBytes) =
      cp.keystream k nonce := by
    unfold source_key_stream
    rw [nonce_clusterShape cp k nonce hdr _ padBytes hnonce htag]
  have e7 : read_and_decrypt (cp.keystream k nonce)
      (clusterShape cp k nonce hdr
        (xorStream (cp.keystream k nonce)
          (hdr.length + (cp.blake2s128 hdr).length) body) padBytes)
      CLUSTER_META_SIZE 28 body.length = .ok body := by
    unfold clusterShape
    have := read_and_decrypt_inside (cp.keystream k nonce)
      (imprint_bytes cp k nonce ++ xorStream (cp.keystream k nonce) 0 hdr ++
        xorStream (cp.keystream k nonce) hdr.length (cp.blake2s128 hdr))
      body padBytes (hdr.length + (cp.blake2s128 hdr).length) 0 body.length
      CLUSTER_META_SIZE 28
      (by simp [xorStream_length, himp, hhdr, hb2s, CLUSTER_META_SIZE,
        FULL_LEN, MAC_LEN])
      (by rw [hhdr, hb2s]; simp [MAC_LEN])
      (by omega)
    rw [List.drop_zero, List.take_length] at this
    exact this
  unfold read_data
  simp only [hrh, except_bind_ok, hks, hps, e7]
  rw [if_pos hcrcne]

/-- C4 amended: decoding raises ChecksumMismatch with message "Header
checksum mismatch." when the recomputed BLAKE2s-128 of the decrypted
12-byte header differs from the stored 16-byte MAC, and ChecksumMismatch
with message "Body CRC mismatch." when the CRC-32 of the decrypted body
differs from the header's body_crc32; both failures share the single
exception class ChecksumMismatch and are distinguishable only by their
message strings. -/
theorem C4_amended_checksum_errors (cp : CryptoPrimitives)
    (k k2 : CodenameKey) (nonce hdr mac rest nonce2 hdr2 body padBytes :
      List ℕ)
    (hnonce : nonce.length = ENCRYPTION_NONCE_LEN)
    (htag : (cp.imprintTag k nonce).length = IMPRINT_TAG_LEN)
    (hhdr : hdr.length = 12) (hmac : mac.length = MAC_LEN)
    (hsize : bytes_to_uint16 ((hdr.drop 6).take 2) ≤ 0xFFFF)
    (hne : cp.blake2s128 hdr ≠ mac)
    (hnonce2 : nonce2.length = ENCRYPTION_NONCE_LEN)
    (htag2 : (cp.imprintTag k2 nonce2).length = IMPRINT_TAG_LEN)
    (hb2s2 : (cp.blake2s128 hdr2).length = MAC_LEN)
    (hhdr2 : hdr2.length = 12)
    (hsize2 : bytes_to_uint16 ((hdr2.drop 6).take 2) ≤ 0xFFFF)
    (hps2 : get_lower15bits (bytes_to_uint16 ((hdr2.drop 6).take 2)) =
      body.length)
    (hcrcne : cp.crc32 body ≠ bytes_to_uint32 (hdr2.take 4)) :
    read_header cp k
      (imprint_bytes cp k nonce ++ xorStream (cp.keystream k nonce) 0 hdr ++
        xorStream (cp.keystream k nonce) 12 mac ++ rest) =
      .error (.checksumMismatch "Header checksum mismatch.") ∧
    read_data cp k2 (clusterShape cp k2 nonce2 hdr2
      (xorStream (cp.keystream k2 nonce2)
        (hdr2.length + (cp.blake2s128 hdr2).length) body) padBytes) =
      .error (.checksumMismatch "Body CRC mismatch.") ∧
    (PyErr.checksumMismatch "Header checksum mismatch.").cls =
      (PyErr.checksumMismatch "Body CRC mismatch.").cls ∧
    PyErr.checksumMismatch "Header checksum mismatch." ≠
      PyErr.checksumMismatch "Body CRC mismatch." :=
  ⟨read_header_wrong_mac cp k nonce hdr mac rest hnonce htag hhdr hmac hsize
      hne,
    read_data_wrong_crc cp k2 nonce2 hdr2 body padBytes hnonce2 htag2 hb2s2
      hhdr2 hsize2 hps2 hcrcne,
    rfl, by decide⟩

/-- Witness for the amended C4 at concrete tampered clusters. -/
theorem C4_amended_checksum_errors_witness :
    cp_example.blake2s128 (be32 0 ++ be16 0 ++ be16 0 ++ be32 1) ≠
      List.replicate 16 5 ∧
    (read_header cp_example [1]
      (imprint_bytes cp_example [1] (List.replicate 12 0) ++
        xorStream (cp_example.keystream [1] (List.replicate 12 0)) 0
          (be32 0 ++ be16 0 ++ be16 0 ++ be32 1) ++
        xorStream (cp_example.keystream [1] (List.replicate 12 0)) 12
          (List.replicate 16 5) ++ []) =
      .error (.checksumMismatch "Header checksum mismatch.") ∧
    read_data cp_example [2] (clusterShape cp_example [2]
      (List.replicate 12 0)
      (be32 999 ++ be16 0 ++ be16 (set_bit_val 1 true) ++ be32 1)
      (xorStream (cp_example.keystream [2] (List.replicate 12 0))
        ((be32 999 ++ be16 0 ++ be16 (set_bit_val 1 true) ++
          be32 1).length +
          (cp_example.blake2s128 (be32 999 ++ be16 0 ++
            be16 (set_bit_val 1 true) ++ be32 1)).length) [7]) []) =
      .error (.checksumMismatch "Body CRC mismatch.") ∧
    (PyErr.checksumMismatch "Header checksum mismatch.").cls =
      (PyErr.checksumMismatch "Body CRC mismatch.").cls ∧
    PyErr.checksumMismatch "Header checksum mismatch." ≠
      PyErr.checksumMismatch "Body CRC mismatch.") :=
  ⟨by decide,
    C4_amended_checksum_errors cp_example [1] [2] (List.replicate 12 0)
      (be32 0 ++ be16 0 ++ be16 0 ++ be32 1) (List.replicate 16 5) []
      (List.replicate 12 0)
      (be32 999 ++ be16 0 ++ be16 (set_bit_val 1 true) ++ be32 1) [7] []
      (by decide) (by decide) (by decide) (by decide) (by decide) (by decide)
      (by decide) (by decide) (by decide) (by decide) (by decide) (by decide)
      (by decide)⟩

/-- C4 counterexample: the two checksum failures are not distinct error
kinds.  At concrete tampered clusters, a header MAC mismatch and a body CRC
mismatch both raise the same exception class, ChecksumMismatch; only the
message string differs. -/
theorem C4_counterexample_same_error_class :
    read_header cp_example [1]
      (imprint_bytes cp_example [1] (List.replicate 12 0) ++
        xorStream (cp_example.keystream [1] (List.replicate 12 0)) 0
          (be32 0 ++ be16 0 ++ be16 0 ++ be32 1) ++
        xorStream (cp_example.keystream [1] (List.replicate 12 0)) 12
          (List.replicate 16 5) ++ []) =
      .error (.checksumMismatch "Header checksum mismatch.") ∧
    read_data cp_example [1] (clusterShape cp_example [1]
      (List.replicate 12 0)
      (be32 999 ++ be16 0 ++ be16 (set_bit_val 1 true) ++ be32 1)
      (xorStream (cp_example.keystream [1] (List.replicate 12 0))
        ((be32 999 ++ be16 0 ++ be16 (set_bit_val 1 true) ++
          be32 1).length +
          (cp_example.blake2s128 (be32 999 ++ be16 0 ++
            be16 (set_bit_val 1 true) ++ be32 1)).length) [7]) []) =
      .error (.checksumMismatch "Body CRC mismatch.") ∧
    (PyErr.checksumMismatch "Header checksum mismatch.").cls =
      (PyErr.checksumMismatch "Body CRC mismatch.").cls := by
  decide

/-! ## Blob store indexed reader
(src/codn/b_storage_file/_20_blobs_list_io.py lines 80–128).  Python
integers are modelled by ℤ; Python's `//` is floor division (`Int.fdiv`). -/

/-- Modelled from the spec: `FragmentIO`
(codn.b_storage_file._10_fragment_io is not in the tree) is a windowed
read-only view of the underlying stream, "bounded range + independent
cursor" (spec §9); it is recorded here by its window start offset and
window length. -/
structure FragmentIO where
  start : ℤ
  size : ℤ
  deriving DecidableEq

/-- The fields computed by `BlobsIndexedReader.__init__`: the stream size,
the starting stream position, and the cluster count. -/
structure BlobsIndexedReader where
  io_size : ℤ
  start_pos : ℤ
  len : ℤ
  deriving DecidableEq

/-- `BlobsIndexedReader.__init__` from the source: remembers the current
stream position as the start of the blobs region, seeks to the end to learn
the total size, and computes `_len = (io_size - start_pos) // cs`. -/
def mkBlobsIndexedReader (cs io_size start_pos : ℤ) : BlobsIndexedReader :=
  ⟨io_size, start_pos, (io_size - start_pos).fdiv cs⟩

/-- `BlobsIndexedReader.tail_size` from the source. -/
def BlobsIndexedReader.tail_size (cs : ℤ) (r : BlobsIndexedReader) : ℤ :=
  (r.io_size - r.start_pos) - r.len * cs

/-- `BlobsIndexedReader.io` from the source: index checks, then a windowed
view of the idx-th cluster. -/
def BlobsIndexedReader.io (cs : ℤ) (r : BlobsIndexedReader) (idx : ℤ) :
    Except PyErr FragmentIO :=
  if idx < 0 then .error (.indexError "Negative value")
  else if r.len ≤ idx then
    .error (.indexError ("Must not be larger than " ++ toString r.len))
  else .ok ⟨r.start_pos + idx * cs, cs⟩

/-- C7: for a stream of total size S whose cluster region starts at offset
s, the reader's length is (S − s) / CLUSTER_SIZE (integer division, also
matching the natural-number division of the claim), tail_size is the
remainder (so 0 ≤ tail_size < CLUSTER_SIZE and len·CLUSTER_SIZE +
tail_size = S − s), io(i) for 0 ≤ i < len is a window of size CLUSTER_SIZE
starting at s + i·CLUSTER_SIZE, and io(i) raises IndexError for i < 0 and
for i ≥ len. -/
theorem C7_blobs_indexed_reader (cs S s : ℤ)
    (hcs : 0 < cs) (hs : 0 ≤ s) (hS : s ≤ S) :
    (mkBlobsIndexedReader cs S s).len =
      (((S - s).toNat / cs.toNat : ℕ) : ℤ) ∧
    (mkBlobsIndexedReader cs S s).len * cs +
      (mkBlobsIndexedReader cs S s).tail_size cs = S - s ∧
    0 ≤ (mkBlobsIndexedReader cs S s).tail_size cs ∧
    (mkBlobsIndexedReader cs S s).tail_size cs < cs ∧
    (∀ i : ℤ, 0 ≤ i → i < (mkBlobsIndexedReader cs S s).len →
      (mkBlobsIndexedReader cs S s).io cs i = .ok ⟨s + i * cs, cs⟩) ∧
    (∀ i : ℤ, i < 0 ∨ (mkBlobsIndexedReader cs S s).len ≤ i →
      ∃ m, (mkBlobsIndexedReader cs S s).io cs i =
        .error (.indexError m)) := by
  have hfd : (S - s).fdiv cs = (S - s) / cs :=
    Int.fdiv_eq_ediv (S - s) (by omega)
  have hlen : (mkBlobsIndexedReader cs S s).len = (S - s) / cs := hfd
  refine ⟨?_, ?_, ?_, ?_, ?_, ?_⟩
  · rw [hlen, Int.ofNat_ediv, Int.toNat_of_nonneg (by omega),
      Int.toNat_of_nonneg (by omega)]
  · show (S - s).fdiv cs * cs + ((S - s) - (S - s).fdiv cs * cs) = S - s
    omega
  · show 0 ≤ (S - s) - (S - s).fdiv cs * cs
    rw [hfd]
    have h1 := Int.ediv_add_emod (S - s) cs
    have h2 := Int.emod_nonneg (S - s) (by omega : cs ≠ 0)
    have h3 : (S - s) / cs * cs = cs * ((S - s) / cs) := mul_comm _ _
    omega
  · show (S - s) - (S - s).fdiv cs * cs < cs
    rw [hfd]
    have h1 := Int.ediv_add_emod (S - s) cs
    have h2 := Int.emod_lt_of_pos (S - s) hcs
    have h3 : (S - s) / cs * cs = cs * ((S - s) / cs) := mul_comm _ _
    omega
  · intro i hi0 hilen
    unfold BlobsIndexedReader.io
    rw [if_neg (by omega), if_neg (by
      show ¬ (mkBlobsIndexedReader cs S s).len ≤ i
      omega)]
    rfl
  · intro i hi
    by_cases h0 : i < 0
    · refine ⟨"Negative value", ?_⟩
      unfold BlobsIndexedReader.io
      rw [if_pos h0]
    · have hge : (mkBlobsIndexedReader cs S s).len ≤ i := by tauto
      refine ⟨"Must not be larger than " ++
        toString (mkBlobsIndexedReader cs S s).len, ?_⟩
      unfold BlobsIndexedReader.io
      rw [if_neg h0, if_pos hge]

/-- Witness for C7 at a stream of 150 bytes with the cluster region
starting at offset 10 and cluster size 64 (two clusters, 12-byte tail). -/
theorem C7_blobs_indexed_reader_witness :
    (0 : ℤ) < 64 ∧
    ((mkBlobsIndexedReader 64 150 10).len =
      ((((150 - 10 : ℤ)).toNat / (64 : ℤ).toNat : ℕ) : ℤ) ∧
    (mkBlobsIndexedReader 64 150 10).len * 64 +
      (mkBlobsIndexedReader 64 150 10).tail_size 64 = 150 - 10 ∧
    0 ≤ (mkBlobsIndexedReader 64 150 10).tail_size 64 ∧
    (mkBlobsIndexedReader 64 150 10).tail_size 64 < 64 ∧
    (∀ i : ℤ, 0 ≤ i → i < (mkBlobsIndexedReader 64 150 10).len →
      (mkBlobsIndexedReader 64 150 10).io 64 i = .ok ⟨10 + i * 64, 64⟩) ∧
    (∀ i : ℤ, i < 0 ∨ (mkBlobsIndexedReader 64 150 10).len ≤ i →
      ∃ m, (mkBlobsIndexedReader 64 150 10).io 64 i =
        .error (.indexError m))) :=
  ⟨by norm_num,
    C7_blobs_indexed_reader 64 150 10 (by norm_num) (by norm_num)
      (by norm_num)⟩

/-! ## Name-group manager and update protocol

Modelled from the spec: the `codn.cryptodir.namegroup` module
(`NewNameGroup`, `decrypt_from_dios`, `update_namegroup`) is not in the
tree; §4.G and §4.H of the specification describe it.  The container is a
salt region followed by a list of clusters; the KDF deriving per-name keys
(spec §4.B) is a parameter `kdf`. -/

/-- List-level `mapM` for `Except`, written recursively so that it the
kernel can evaluate it: stops at the first error, like a Python loop that
raises. -/
def mapME {α β : Type} (f : α → Except PyErr β) : List α →
    Except PyErr (List β)
  | [] => .ok []
  | a :: t => do
    let b ← f a
    let bs ← mapME f t
    .ok (b :: bs)

theorem mapME_ok_map {α β : Type} (f : α → Except PyErr β) (g : α → β)
    (l : List α) (h : ∀ x ∈ l, f x = .ok (g x)) :
    mapME f l = .ok (l.map g) := by
  induction l with
  | nil => rfl
  | cons a t ih =>
    unfold mapME
    rw [h a (by simp), except_bind_ok, ih (fun x hx => h x (by simp [hx])),
      except_bind_ok, List.map_cons]

/-- Fuel-indexed chunk splitting: each step emits one chunk of at most `m`
bytes and consumes one unit of fuel; with chunk size at least one and fuel
at least the input length the fuel never runs out. -/
def split_fuel (m : ℕ) : ℕ → List ℕ → List (List ℕ)
  | _, [] => []
  | 0, l => [l]
  | fuel + 1, l => l.take m :: split_fuel m fuel (l.drop m)

/-- Modelled from the spec: split the plaintext into parts of size
`MAX_CLUSTER_CONTENT_SIZE`, the last part possibly smaller (spec §4.H
step 2). -/
def split_into_parts (m : ℕ) (p : List ℕ) : List (List ℕ) :=
  split_fuel m p.length p

theorem split_fuel_join (m : ℕ) (hm : 0 < m) :
    ∀ fuel l, l.length ≤ fuel → (split_fuel m fuel l).join = l := by
  intro fuel
  induction fuel with
  | zero =>
    intro l hl
    have : l = [] := by
      cases l with
      | nil => rfl
      | cons a t => simp at hl
    subst this
    simp [split_fuel]
  | succ n ih =>
    intro l hl
    cases l with
    | nil => simp [split_fuel]
    | cons a t =>
      show ((a :: t).take m :: split_fuel m n ((a :: t).drop m)).join = a :: t
      have hj : ((a :: t).take m :: split_fuel m n ((a :: t).drop m)).join =
          (a :: t).take m ++ (split_fuel m n ((a :: t).drop m)).join := by
        simp
      rw [hj,
        ih ((a :: t).drop m)
          (by simp only [List.length_drop, List.length_cons] at hl ⊢; omega),
        List.take_append_drop]

theorem split_fuel_parts_le (m : ℕ) (hm : 0 < m) :
    ∀ fuel l, l.length ≤ fuel → ∀ part ∈ split_fuel m fuel l,
      part.length ≤ m := by
  intro fuel
  induction fuel with
  | zero =>
    intro l hl part hpart
    have : l = [] := by
      cases l with
      | nil => rfl
      | cons a t => simp at hl
    subst this
    simp [split_fuel] at hpart
  | succ n ih =>
    intro l hl part hpart
    cases l with
    | nil => simp [split_fuel] at hpart
    | cons a t =>
      rw [show split_fuel m (n + 1) (a :: t) =
        (a :: t).take m :: split_fuel m n ((a :: t).drop m) from rfl] at hpart
      rcases List.mem_cons.mp hpart with h | h
      · subst h
        simp [List.length_take]
      · exact ih ((a :: t).drop m)
          (by simp only [List.length_drop, List.length_cons] at hl ⊢; omega)
          part h

theorem split_fuel_length_le (m : ℕ) (hm : 0 < m) :
    ∀ fuel l k, l.length ≤ fuel → l.length ≤ k * m →
      (split_fuel m fuel l).length ≤ k := by
  intro fuel
  induction fuel with
  | zero =>
    intro l k hl hk
    have : l = [] := by
      cases l with
      | nil => rfl
      | cons a t => simp at hl
    subst this
    simp [split_fuel]
  | succ n ih =>
    intro l k hl hk
    cases l with
    | nil => simp [split_fuel]
    | cons a t =>
      have hk1 : 1 ≤ k := by
        by_contra hc
        have hk0 : k = 0 := by omega
        subst hk0
        simp at hk
      show ((a :: t).take m :: split_fuel m n ((a :: t).drop m)).length ≤ k
      rw [List.length_cons]
      have hmul : (k - 1) * m = k * m - m := Nat.sub_one_mul k m
      have hrec := ih ((a :: t).drop m) (k - 1)
        (by simp only [List.length_drop, List.length_cons] at hl ⊢; omega)
        (by simp only [List.length_drop, List.length_cons] at hk ⊢; omega)
      omega

/-- Modelled from the spec: the list of plaintext parts written for a value
(spec §4.H step 2).  A non-empty plaintext is split into chunks of
`MAX_CLUSTER_CONTENT_SIZE`; an empty plaintext written by `set` is stored
as one zero-length part, so that it is distinguishable from an absent name
(spec §8 scenario S2 stores `[]` and reads it back). -/
def parts_of (cs : ℕ) (p : List ℕ) : List (List ℕ) :=
  if p.isEmpty then [[]]
  else split_into_parts (MAX_CLUSTER_CONTENT_SIZE cs) p

theorem parts_of_join (cs : ℕ) (p : List ℕ)
    (hm : 0 < MAX_CLUSTER_CONTENT_SIZE cs) :
    (parts_of cs p).join = p := by
  unfold parts_of
  by_cases hp : p.isEmpty
  · rw [if_pos hp]
    rw [List.isEmpty_iff] at hp
    subst hp
    rfl
  · rw [if_neg hp]
    exact split_fuel_join _ hm p.length p (le_refl _)

theorem parts_of_sizes (cs : ℕ) (p : List ℕ)
    (hm : 0 < MAX_CLUSTER_CONTENT_SIZE cs) :
    ∀ part ∈ parts_of cs p, part.length ≤ MAX_CLUSTER_CONTENT_SIZE cs := by
  intro part hpart
  unfold parts_of at hpart
  by_cases hp : p.isEmpty
  · rw [if_pos hp] at hpart
    simp at hpart
    subst hpart
    simp
  · rw [if_neg hp] at hpart
    exact split_fuel_parts_le _ hm p.length p (le_refl _) part hpart

theorem parts_of_length_pos (cs : ℕ) (p : List ℕ) :
    1 ≤ (parts_of cs p).length := by
  unfold parts_of
  by_cases hp : p.isEmpty
  · rw [if_pos hp]
    simp
  · rw [if_neg hp]
    have : p ≠ [] := by
      intro h
      subst h
      simp at hp
    obtain ⟨a, t, rfl⟩ := List.exists_cons_of_ne_nil this
    show 1 ≤ (split_fuel _ (t.length + 1) (a :: t)).length
    rw [show split_fuel (MAX_CLUSTER_CONTENT_SIZE cs) (t.length + 1) (a :: t) =
      (a :: t).take (MAX_CLUSTER_CONTENT_SIZE cs) ::
        split_fuel (MAX_CLUSTER_CONTENT_SIZE cs) t.length
          ((a :: t).drop (MAX_CLUSTER_CONTENT_SIZE cs)) from rfl]
    simp

theorem parts_of_length_le (cs : ℕ) (p : List ℕ)
    (hm : 0 < MAX_CLUSTER_CONTENT_SIZE cs)
    (hp : p.length ≤ 0x100 * MAX_CLUSTER_CONTENT_SIZE cs) :
    (parts_of cs p).length ≤ 0x100 := by
  unfold parts_of
  by_cases hpe : p.isEmpty
  · rw [if_pos hpe]
    simp
  · rw [if_neg hpe]
    exact split_fuel_length_le _ hm p.length p 0x100 (le_refl _) hp

/-! ## Sorting the fresh set by part index (spec §4.G `read_value`) -/

/-- Modelled from the spec: one insertion step of the part-index insertion
sort used to order the fresh set (`sorted(..., key=part_idx)`). -/
def insertByIdx (x : Header × List ℕ) :
    List (Header × List ℕ) → List (Header × List ℕ)
  | [] => [x]
  | y :: t =>
    if x.1.part_idx ≤ y.1.part_idx then x :: y :: t else y :: insertByIdx x t

/-- Modelled from the spec: sort a list of decoded (header, cluster) pairs
by `part_idx` (spec §4.G: "sort by part_idx"). -/
def sortByIdx : List (Header × List ℕ) → List (Header × List ℕ)
  | [] => []
  | x :: t => insertByIdx x (sortByIdx t)

theorem insertByIdx_perm (x : Header × List ℕ) (l : List (Header × List ℕ)) :
    List.Perm (insertByIdx x l) (x :: l) := by
  induction l with
  | nil => exact List.Perm.refl _
  | cons y t ih =>
    unfold insertByIdx
    by_cases h : x.1.part_idx ≤ y.1.part_idx
    · rw [if_pos h]
    · rw [if_neg h]
      exact (ih.cons y).trans (List.Perm.swap x y t)

theorem sortByIdx_perm (l : List (Header × List ℕ)) :
    List.Perm (sortByIdx l) l := by
  induction l with
  | nil => exact List.Perm.refl _
  | cons x t ih =>
    exact (insertByIdx_perm x (sortByIdx t)).trans (ih.cons x)

theorem insertByIdx_sorted (x : Header × List ℕ)
    (l : List (Header × List ℕ))
    (h : l.Pairwise (fun a b => a.1.part_idx ≤ b.1.part_idx)) :
    (insertByIdx x l).Pairwise (fun a b => a.1.part_idx ≤ b.1.part_idx) := by
  induction l with
  | nil => simp [insertByIdx]
  | cons y t ih =>
    rw [List.pairwise_cons] at h
    unfold insertByIdx
    by_cases hxy : x.1.part_idx ≤ y.1.part_idx
    · rw [if_pos hxy]
      refine List.Pairwise.cons ?_ (List.Pairwise.cons h.1 h.2)
      intro z hz
      rcases List.mem_cons.mp hz with rfl | hz2
      · exact hxy
      · exact le_trans hxy (h.1 z hz2)
    · rw [if_neg hxy]
      refine List.Pairwise.cons ?_ (ih h.2)
      intro z hz
      have hmem := (insertByIdx_perm x t).mem_iff.mp hz
      rcases List.mem_cons.mp hmem with rfl | hz2
      · omega
      · exact h.1 z hz2

theorem sortByIdx_sorted (l : List (Header × List ℕ)) :
    (sortByIdx l).Pairwise (fun a b => a.1.part_idx ≤ b.1.part_idx) := by
  induction l with
  | nil => exact List.Pairwise.nil
  | cons x t ih => exact insertByIdx_sorted x (sortByIdx t) ih

/-- A permutation of a strictly key-increasing list that is itself weakly
key-sorted coincides with it: sorting the fresh set by part index yields
the canonical part order. -/
theorem sorted_perm_eq (canon : List (Header × List ℕ)) :
    ∀ l, List.Perm l canon →
    l.Pairwise (fun a b => a.1.part_idx ≤ b.1.part_idx) →
    canon.Pairwise (fun a b => a.1.part_idx < b.1.part_idx) →
    l = canon := by
  induction canon with
  | nil =>
    intro l hperm _ _
    exact hperm.eq_nil
  | cons c ct ih =>
    intro l hperm hsort hstrict
    cases l with
    | nil => exact absurd hperm.symm.eq_nil (by simp)
    | cons a lt =>
      rw [List.pairwise_cons] at hsort hstrict
      have hac : a = c := by
        by_contra hne
        have ha : a ∈ c :: ct := hperm.subset (List.mem_cons_self a lt)
        have hc : c ∈ a :: lt := hperm.symm.subset (List.mem_cons_self c ct)
        rcases List.mem_cons.mp ha with h1 | h1
        · exact hne h1
        · rcases List.mem_cons.mp hc with h2 | h2
          · exact hne h2.symm
          · have hca := hstrict.1 a h1
            have hac2 := hsort.1 c h2
            omega
      subst hac
      rw [ih lt (hperm.cons_inv) hsort.2 hstrict.2]

/-- Folding `max` over a list that contains `v` and whose elements are all
at most `v` yields `v`: the fresh version is the maximal data version. -/
theorem foldr_max_eq (l : List ℕ) (v : ℕ) (hmem : v ∈ l)
    (hle : ∀ x ∈ l, x ≤ v) : l.foldr max 0 = v := by
  induction l with
  | nil => simp at hmem
  | cons a t ih =>
    rw [List.foldr_cons]
    rcases List.mem_cons.mp hmem with rfl | hmem2
    · have : t.foldr max 0 ≤ v := by
        clear ih hmem
        induction t with
        | nil => simp
        | cons b u ihu =>
          rw [List.foldr_cons]
          have hb := hle b (by simp)
          have hu : u.foldr max 0 ≤ v := ihu (by
            intro x hx
            exact hle x (by
              rcases List.mem_cons.mp hx with rfl | hx2
              · exact List.mem_cons_self x (b :: u)
              · exact List.mem_cons_of_mem _ (List.mem_cons_of_mem _ hx2)))
          omega
      omega
    · have ht := ih hmem2 (fun x hx => hle x (List.mem_cons_of_mem a hx))
      have ha := hle a (by simp)
      omega

/-! ## Name-group update and read (spec §4.G, §4.H; module not in tree) -/

/-- Modelled from the spec: the randomness consumed by one container
update.  `nonces i` is the imprint nonce of the `i`-th newly written
cluster, `fakeCrcs i` the random CRC field of the `i`-th decoy, `pad i n`
the `n` random padding bytes of the `i`-th cluster, and `nFakes` the
randomized decoy count (spec §4.H step 3c). -/
structure EncRand where
  nonces : ℕ → List ℕ
  fakeCrcs : ℕ → List ℕ
  pad : ℕ → ℕ → List ℕ
  nFakes : ℕ

/-- Shape conditions on the drawn randomness: nonces are 12 bytes, decoy
CRC fields 4 bytes, and padding has the requested length. -/
def EncRand.WF (r : EncRand) : Prop :=
  (∀ i, (r.nonces i).length = ENCRYPTION_NONCE_LEN) ∧
  (∀ i, (r.fakeCrcs i).length = 4) ∧
  (∀ i n, (r.pad i n).length = n)

/-- Modelled from the spec: encode the parts of the new value, the `i`-th
part as a real cluster with `part_idx = i`, `parts_len = P`, the new data
version, and `target_size = CLUSTER_SIZE` (spec §4.H step 3b). -/
def encode_parts (cp : CryptoPrimitives) (cs : ℕ) (k : CodenameKey)
    (dv P : ℕ) (rand : EncRand) : ℕ → List (List ℕ) →
    Except PyErr (List (List ℕ))
  | _, [] => .ok []
  | i, part :: rest => do
    let e ← mkEncrypt cs k dv cs i P (some part.length)
    let cl ← io_to_io cp e (some part) (rand.nonces i) [] (rand.pad i)
    let t ← encode_parts cp cs k dv P rand (i + 1) rest
    .ok (cl :: t)

/-- Modelled from the spec: encode `n` decoy clusters under `k` (FAKE
version, no body), the counter `i` numbering the consumed randomness
(spec §4.H step 3c). -/
def encode_fakes (cp : CryptoPrimitives) (cs : ℕ) (k : CodenameKey)
    (rand : EncRand) : ℕ → ℕ → Except PyErr (List (List ℕ))
  | _, 0 => .ok []
  | i, n + 1 => do
    let e ← mkEncrypt cs k 0 cs 0 1 none
    let cl ← io_to_io cp e none (rand.nonces i) (rand.fakeCrcs i) (rand.pad i)
    let t ← encode_fakes cp cs k rand (i + 1) n
    .ok (cl :: t)

/-- Modelled from the spec: the update protocol §4.H over the cluster list.
Clusters matching `k` are decoded to find the highest real data version;
`new_version` is one more (VersionExhausted when it reaches the FAKE
sentinel); the plaintext is split into parts and encoded as real clusters;
a randomized number of decoys under `k` is appended; foreign clusters are
carried unchanged; the final list is shuffled (the shuffle is a parameter,
constrained to a permutation where theorems need it). -/
def update_namegroup (cp : CryptoPrimitives) (cs : ℕ) (k : CodenameKey)
    (p : List ℕ) (clusters : List (List ℕ)) (rand : EncRand)
    (shuffle : List (List ℕ) → List (List ℕ)) :
    Except PyErr (List (List ℕ)) := do
  let mine := clusters.filter (fun cl => belongs_to_namegroup cp k cl)
  let carried := clusters.filter (fun cl => ! belongs_to_namegroup cp k cl)
  let hdrs ← mapME (fun cl => read_header cp k cl) mine
  let versions := (hdrs.filter
    (fun h => h.data_version != FAKE_CONTENT_VERSION)).map
    (fun h => h.data_version)
  let new_version := versions.foldr max 0 + 1
  if new_version = FAKE_CONTENT_VERSION then .error .versionExhausted
  else do
    let parts := parts_of cs p
    let reals ← encode_parts cp cs k new_version parts.length rand 0 parts
    let fakes ← encode_fakes cp cs k rand parts.length rand.nFakes
    .ok (shuffle (carried ++ reals ++ fakes))

/-- Modelled from the spec: the §4.G invariant check on the fresh set:
part indices cover `{0..P−1}` exactly once and the last-part flag is set
exactly on index `P−1` (with `P` the fresh set's size). -/
def parts_valid (fresh : List (Header × List ℕ)) : Bool :=
  (List.range fresh.length).all
    (fun i => fresh.countP (fun pr => pr.1.part_idx == i) == 1) &&
  fresh.all (fun pr =>
    pr.1.is_last_part == decide (pr.1.part_idx = fresh.length - 1))

/-- Modelled from the spec: the `read_value` phase of §4.G over the decoded
(header, cluster) pairs of the matching clusters.  Drop decoys (FAKE
version); return `none` when no real cluster remains; otherwise keep the
highest data version, invariant-check the fresh set, sort it by part index
and concatenate the decrypted bodies. -/
def namegroup_read (cp : CryptoPrimitives) (k : CodenameKey)
    (pairs : List (Header × List ℕ)) : Except PyErr (Option (List ℕ)) :=
  let reals := pairs.filter
    (fun pr => pr.1.data_version != FAKE_CONTENT_VERSION)
  if reals.isEmpty then .ok none
  else
    let fresh_version := (reals.map (fun pr => pr.1.data_version)).foldr max 0
    let fresh := reals.filter
      (fun pr => pr.1.data_version == fresh_version)
    if parts_valid fresh then do
      let bodies ← mapME (fun pr => read_data cp k pr.2) (sortByIdx fresh)
      Except.ok (some bodies.join)
    else Except.ok none

/-- Modelled from the spec: the §4.G read path.  Scan the clusters, keep
those whose imprint matches, decode their headers, and run the read phase
on the decoded pairs. -/
def namegroup_get (cp : CryptoPrimitives) (k : CodenameKey)
    (clusters : List (List ℕ)) : Except PyErr (Option (List ℕ)) := do
  let pairs ← mapME (fun cl => (read_header cp k cl).map (fun h => (h, cl)))
    (clusters.filter (fun cl => belongs_to_namegroup cp k cl))
  namegroup_read cp k pairs

/-- Modelled from the spec: a container is its salt region and its cluster
list (spec §6 file layout; the random tail does not reach the reader). -/
structure CryptoDir where
  salt : List ℕ
  clusters : List (List ℕ)
  deriving DecidableEq

/-- Modelled from the spec: `CryptoDir.set_from_io` — derive the per-name
key with the KDF (a parameter, `codn.a_base` not being in the tree) and run
the update protocol on the cluster list. -/
def cryptodir_set (cp : CryptoPrimitives) (cs : ℕ)
    (kdf : List ℕ → List ℕ → CodenameKey) (d : CryptoDir)
    (name p : List ℕ) (rand : EncRand)
    (shuffle : List (List ℕ) → List (List ℕ)) : Except PyErr CryptoDir :=
  (update_namegroup cp cs (kdf name d.salt) p d.clusters rand shuffle).map
    (fun cls => ⟨d.salt, cls⟩)

/-- Modelled from the spec: `CryptoDir.get` — derive the per-name key and
run the §4.G read path. -/
def cryptodir_get (cp : CryptoPrimitives)
    (kdf : List ℕ → List ℕ → CodenameKey) (d : CryptoDir) (name : List ℕ) :
    Except PyErr (Option (List ℕ)) :=
  namegroup_get cp (kdf name d.salt) d.clusters

/-- The canonical byte strings of the real clusters written for the parts
`l` starting at part index `i` (proof-side description of what
`encode_parts` produces). -/
def realClustersFrom (cp : CryptoPrimitives) (cs : ℕ) (k : CodenameKey)
    (dv P : ℕ) (rand : EncRand) : ℕ → List (List ℕ) → List (List ℕ)
  | _, [] => []
  | i, part :: rest =>
    encoded_real_cluster cp k (rand.nonces i) part i
      (set_bit_val part.length (decide (i = P - 1))) dv
      (rand.pad i (cs - (CLUSTER_META_SIZE + part.length))) ::
    realClustersFrom cp cs k dv P rand (i + 1) rest

/-- The canonical byte strings of `n` decoy clusters starting at
randomness index `i`. -/
def fakeClustersFrom (cp : CryptoPrimitives) (cs : ℕ) (k : CodenameKey)
    (rand : EncRand) : ℕ → ℕ → List (List ℕ)
  | _, 0 => []
  | i, n + 1 =>
    encoded_fake_cluster cp k (rand.nonces i) (rand.fakeCrcs i)
      (rand.pad i (cs - CLUSTER_META_SIZE)) ::
    fakeClustersFrom cp cs k rand (i + 1) n

/-- The decoded header of a cluster, with a default for the error case:
total companion of `read_header` used to state map-level equalities. -/
def header_of (cp : CryptoPrimitives) (k : CodenameKey) (cl : List ℕ) :
    Header :=
  match read_header cp k cl with
  | .ok h => h
  | .error _ => ⟨0, false, 0, 0, 0⟩

/-- A cluster paired with its decoded header. -/
def pair_of (cp : CryptoPrimitives) (k : CodenameKey) (cl : List ℕ) :
    Header × List ℕ :=
  (header_of cp k cl, cl)

/-- The canonical (header, cluster) pairs of the real clusters for parts
`l` starting at index `i`. -/
def realPairsFrom (cp : CryptoPrimitives) (cs : ℕ) (k : CodenameKey)
    (dv P : ℕ) (rand : EncRand) : ℕ → List (List ℕ) →
    List (Header × List ℕ)
  | _, [] => []
  | i, part :: rest =>
    (⟨cp.crc32 part, decide (i = P - 1), dv, i, part.length⟩,
     encoded_real_cluster cp k (rand.nonces i) part i
       (set_bit_val part.length (decide (i = P - 1))) dv
       (rand.pad i (cs - (CLUSTER_META_SIZE + part.length)))) ::
    realPairsFrom cp cs k dv P rand (i + 1) rest

/-- The canonical (header, cluster) pairs of `n` decoy clusters starting
at randomness index `i`. -/
def fakePairsFrom (cp : CryptoPrimitives) (cs : ℕ) (k : CodenameKey)
    (rand : EncRand) : ℕ → ℕ → List (Header × List ℕ)
  | _, 0 => []
  | i, n + 1 =>
    (⟨bytes_to_uint32 (rand.fakeCrcs i), true, FAKE_CONTENT_VERSION, 0, 0⟩,
     encoded_fake_cluster cp k (rand.nonces i) (rand.fakeCrcs i)
       (rand.pad i (cs - CLUSTER_META_SIZE))) ::
    fakePairsFrom cp cs k rand (i + 1) n

theorem encode_parts_eq (cp : CryptoPrimitives) (cs : ℕ) (k : CodenameKey)
    (dv P : ℕ) (rand : EncRand)
    (hb2s : ∀ x, (cp.blake2s128 x).length = MAC_LEN)
    (htag : ∀ k2 n2, (cp.imprintTag k2 n2).length = IMPRINT_TAG_LEN)
    (hcrcwf : ∀ x, cp.crc32 x < 2 ^ 32)
    (hnonce : ∀ i, (rand.nonces i).length = ENCRYPTION_NONCE_LEN)
    (hdv : dv < 2 ^ 32) (hP1 : 1 ≤ P) (hP256 : P ≤ 0x100)
    (hmax : MAX_CLUSTER_CONTENT_SIZE cs ≤ 0x7FFF)
    (hmeta : CLUSTER_META_SIZE ≤ cs) :
    ∀ (l : List (List ℕ)) (i : ℕ), i + l.length ≤ P →
    (∀ part ∈ l, part.length ≤ MAX_CLUSTER_CONTENT_SIZE cs) →
    encode_parts cp cs k dv P rand i l =
      .ok (realClustersFrom cp cs k dv P rand i l) := by
  intro l
  induction l with
  | nil =>
    intro i _ _
    rfl
  | cons part rest ih =>
    intro i hi hparts
    have hpart := hparts part (by simp)
    have hmd : MAX_CLUSTER_CONTENT_SIZE cs = cs - CLUSTER_META_SIZE := rfl
    have hps15 : part.length ≤ 0x7FFF := le_trans hpart hmax
    have hlen : (part :: rest).length = rest.length + 1 := by simp
    have hidx : i ≤ 0xFF := by
      rw [hlen] at hi
      omega
    have he := mkEncrypt_ok_some cs k dv cs i P part.length hidx hP1 hP256
      hmax hpart
    have hio := io_to_io_real_eq cp k dv cs i P part.length part
      (rand.nonces i) [] (rand.pad i) hb2s htag hcrcwf hdv hps15 (le_refl _)
      (by rw [hlen] at hi; omega) (hnonce i) (by omega)
    have hrec := ih (i + 1) (by rw [hlen] at hi; omega)
      (fun q hq => hparts q (by simp [hq]))
    show (do
      let e ← mkEncrypt cs k dv cs i P (some part.length)
      let cl ← io_to_io cp e (some part) (rand.nonces i) [] (rand.pad i)
      let t ← encode_parts cp cs k dv P rand (i + 1) rest
      Except.ok (cl :: t) : Except PyErr (List (List ℕ))) = _
    rw [he, except_bind_ok, hio, except_bind_ok, hrec, except_bind_ok,
      List.take_length]
    rfl

theorem encode_fakes_eq (cp : CryptoPrimitives) (cs : ℕ) (k : CodenameKey)
    (rand : EncRand)
    (hb2s : ∀ x, (cp.blake2s128 x).length = MAC_LEN)
    (htag : ∀ k2 n2, (cp.imprintTag k2 n2).length = IMPRINT_TAG_LEN)
    (hnonce : ∀ i, (rand.nonces i).length = ENCRYPTION_NONCE_LEN)
    (hfc : ∀ i, (rand.fakeCrcs i).length = 4)
    (hmax : MAX_CLUSTER_CONTENT_SIZE cs ≤ 0x7FFF)
    (hmeta : CLUSTER_META_SIZE ≤ cs) :
    ∀ (n i : ℕ),
    encode_fakes cp cs k rand i n =
      .ok (fakeClustersFrom cp cs k rand i n) := by
  intro n
  induction n with
  | zero =>
    intro i
    rfl
  | succ m ih =>
    intro i
    have he := mkEncrypt_ok_none cs k 0 cs hmax
    have hio := io_to_io_fake_eq cp k 0 cs (rand.nonces i) (rand.fakeCrcs i)
      (rand.pad i) hb2s htag (hfc i) (hnonce i) hmeta
    show (do
      let e ← mkEncrypt cs k 0 cs 0 1 none
      let cl ← io_to_io cp e none (rand.nonces i) (rand.fakeCrcs i)
        (rand.pad i)
      let t ← encode_fakes cp cs k rand (i + 1) m
      Except.ok (cl :: t) : Except PyErr (List (List ℕ))) = _
    rw [he, except_bind_ok, hio, except_bind_ok, ih (i + 1), except_bind_ok]
    rfl

theorem realClustersFrom_belongs (cp : CryptoPrimitives) (cs : ℕ)
    (k : CodenameKey) (dv P : ℕ) (rand : EncRand)
    (htag : ∀ k2 n2, (cp.imprintTag k2 n2).length = IMPRINT_TAG_LEN)
    (hnonce : ∀ i, (rand.nonces i).length = ENCRYPTION_NONCE_LEN) :
    ∀ (l : List (List ℕ)) (i : ℕ),
    ∀ cl ∈ realClustersFrom cp cs k dv P rand i l,
      belongs_to_namegroup cp k cl = true := by
  intro l
  induction l with
  | nil =>
    intro i cl hcl
    simp [realClustersFrom] at hcl
  | cons part rest ih =>
    intro i cl hcl
    rcases List.mem_cons.mp hcl with rfl | h2
    · exact belongs_encoded_real cp k (rand.nonces i) part _ i _ dv
        (hnonce i) (htag k (rand.nonces i))
    · exact ih (i + 1) cl h2

theorem realClustersFrom_not_belongs (cp : CryptoPrimitives) (cs : ℕ)
    (k k2 : CodenameKey) (dv P : ℕ) (rand : EncRand)
    (htag : ∀ k3 n2, (cp.imprintTag k3 n2).length = IMPRINT_TAG_LEN)
    (hnonce : ∀ i, (rand.nonces i).length = ENCRYPTION_NONCE_LEN)
    (hkeys : ∀ nonce, cp.imprintTag k2 nonce ≠ cp.imprintTag k nonce) :
    ∀ (l : List (List ℕ)) (i : ℕ),
    ∀ cl ∈ realClustersFrom cp cs k dv P rand i l,
      belongs_to_namegroup cp k2 cl = false := by
  intro l
  induction l with
  | nil =>
    intro i cl hcl
    simp [realClustersFrom] at hcl
  | cons part rest ih =>
    intro i cl hcl
    rcases List.mem_cons.mp hcl with rfl | h2
    · unfold encoded_real_cluster
      exact belongs_clusterShape_other cp k k2 (rand.nonces i) _ _ _
        (hnonce i) (htag k (rand.nonces i)) (hkeys (rand.nonces i))
    · exact ih (i + 1) cl h2

theorem fakeClustersFrom_belongs (cp : CryptoPrimitives) (cs : ℕ)
    (k : CodenameKey) (rand : EncRand)
    (htag : ∀ k2 n2, (cp.imprintTag k2 n2).length = IMPRINT_TAG_LEN)
    (hnonce : ∀ i, (rand.nonces i).length = ENCRYPTION_NONCE_LEN) :
    ∀ (n i : ℕ),
    ∀ cl ∈ fakeClustersFrom cp cs k rand i n,
      belongs_to_namegroup cp k cl = true := by
  intro n
  induction n with
  | zero =>
    intro i cl hcl
    simp [fakeClustersFrom] at hcl
  | succ m ih =>
    intro i cl hcl
    rcases List.mem_cons.mp hcl with rfl | h2
    · exact belongs_encoded_fake cp k (rand.nonces i) (rand.fakeCrcs i) _
        (hnonce i) (htag k (rand.nonces i))
    · exact ih (i + 1) cl h2

theorem fakeClustersFrom_not_belongs (cp : CryptoPrimitives) (cs : ℕ)
    (k k2 : CodenameKey) (rand : EncRand)
    (htag : ∀ k3 n2, (cp.imprintTag k3 n2).length = IMPRINT_TAG_LEN)
    (hnonce : ∀ i, (rand.nonces i).length = ENCRYPTION_NONCE_LEN)
    (hkeys : ∀ nonce, cp.imprintTag k2 nonce ≠ cp.imprintTag k nonce) :
    ∀ (n i : ℕ),
    ∀ cl ∈ fakeClustersFrom cp cs k rand i n,
      belongs_to_namegroup cp k2 cl = false := by
  intro n
  induction n with
  | zero =>
    intro i cl hcl
    simp [fakeClustersFrom] at hcl
  | succ m ih =>
    intro i cl hcl
    rcases List.mem_cons.mp hcl with rfl | h2
    · unfold encoded_fake_cluster
      exact belongs_clusterShape_other cp k k2 (rand.nonces i) _ _ _
        (hnonce i) (htag k (rand.nonces i)) (hkeys (rand.nonces i))
    · exact ih (i + 1) cl h2

theorem realClustersFrom_map_pair (cp : CryptoPrimitives) (cs : ℕ)
    (k : CodenameKey) (dv P : ℕ) (rand : EncRand)
    (hb2s : ∀ x, (cp.blake2s128 x).length = MAC_LEN)
    (htag : ∀ k2 n2, (cp.imprintTag k2 n2).length = IMPRINT_TAG_LEN)
    (hcrcwf : ∀ x, cp.crc32 x < 2 ^ 32)
    (hnonce : ∀ i, (rand.nonces i).length = ENCRYPTION_NONCE_LEN)
    (hdv : dv < 2 ^ 32) :
    ∀ (l : List (List ℕ)) (i : ℕ), i + l.length ≤ 0x100 →
    (∀ part ∈ l, part.length ≤ 0x7FFF) →
    (realClustersFrom cp cs k dv P rand i l).map (pair_of cp k) =
      realPairsFrom cp cs k dv P rand i l := by
  intro l
  induction l with
  | nil =>
    intro i _ _
    rfl
  | cons part rest ih =>
    intro i hi hparts
    have hps := hparts part (by simp)
    have hlen : (part :: rest).length = rest.length + 1 := by simp
    have hh := read_header_encoded_real cp k (rand.nonces i) part
      (rand.pad i (cs - (CLUSTER_META_SIZE + part.length))) i part.length dv
      (decide (i = P - 1)) hb2s htag hcrcwf (hnonce i) hdv
      (by rw [hlen] at hi; omega) hps
    show pair_of cp k _ :: List.map (pair_of cp k) _ = _
    rw [ih (i + 1) (by rw [hlen] at hi; omega)
      (fun q hq => hparts q (by simp [hq]))]
    unfold pair_of header_of
    rw [hh]
    rfl

theorem fakeClustersFrom_map_pair (cp : CryptoPrimitives) (cs : ℕ)
    (k : CodenameKey) (rand : EncRand)
    (hb2s : ∀ x, (cp.blake2s128 x).length = MAC_LEN)
    (htag : ∀ k2 n2, (cp.imprintTag k2 n2).length = IMPRINT_TAG_LEN)
    (hnonce : ∀ i, (rand.nonces i).length = ENCRYPTION_NONCE_LEN)
    (hfc : ∀ i, (rand.fakeCrcs i).length = 4) :
    ∀ (n i : ℕ),
    (fakeClustersFrom cp cs k rand i n).map (pair_of cp k) =
      fakePairsFrom cp cs k rand i n := by
  intro n
  induction n with
  | zero =>
    intro i
    rfl
  | succ m ih =>
    intro i
    have hh := read_header_encoded_fake cp k (rand.nonces i)
      (rand.fakeCrcs i) (rand.pad i (cs - CLUSTER_META_SIZE)) hb2s htag
      (hfc i) (hnonce i)
    show pair_of cp k _ :: List.map (pair_of cp k) _ = _
    rw [ih (i + 1)]
    unfold pair_of header_of
    rw [hh]
    rfl

theorem realClustersFrom_f_ok (cp : CryptoPrimitives) (cs : ℕ)
    (k : CodenameKey) (dv P : ℕ) (rand : EncRand)
    (hb2s : ∀ x, (cp.blake2s128 x).length = MAC_LEN)
    (htag : ∀ k2 n2, (cp.imprintTag k2 n2).length = IMPRINT_TAG_LEN)
    (hcrcwf : ∀ x, cp.crc32 x < 2 ^ 32)
    (hnonce : ∀ i, (rand.nonces i).length = ENCRYPTION_NONCE_LEN)
    (hdv : dv < 2 ^ 32) :
    ∀ (l : List (List ℕ)) (i : ℕ), i + l.length ≤ 0x100 →
    (∀ part ∈ l, part.length ≤ 0x7FFF) →
    ∀ cl ∈ realClustersFrom cp cs k dv P rand i l,
      (read_header cp k cl).map (fun h => (h, cl)) =
        .ok (pair_of cp k cl) := by
  intro l
  induction l with
  | nil =>
    intro i _ _ cl hcl
    simp [realClustersFrom] at hcl
  | cons part rest ih
  =>
    intro i hi hparts cl hcl
    have hlen : (part :: rest).length = rest.length + 1 := by simp
    rcases List.mem_cons.mp hcl with rfl | h2
    · have hh := read_header_encoded_real cp k (rand.nonces i) part
        (rand.pad i (cs - (CLUSTER_META_SIZE + part.length))) i part.length
        dv (decide (i = P - 1)) hb2s htag hcrcwf (hnonce i) hdv
        (by rw [hlen] at hi; omega) (hparts part (by simp))
      unfold pair_of header_of
      rw [hh]
      rfl
    · exact ih (i + 1) (by rw [hlen] at hi; omega)
        (fun q hq => hparts q (by simp [hq])) cl h2

theorem fakeClustersFrom_f_ok (cp : CryptoPrimitives) (cs : ℕ)
    (k : CodenameKey) (rand : EncRand)
    (hb2s : ∀ x, (cp.blake2s128 x).length = MAC_LEN)
    (htag : ∀ k2 n2, (cp.imprintTag k2 n2).length = IMPRINT_TAG_LEN)
    (hnonce : ∀ i, (rand.nonces i).length = ENCRYPTION_NONCE_LEN)
    (hfc : ∀ i, (rand.fakeCrcs i).length = 4) :
    ∀ (n i : ℕ),
    ∀ cl ∈ fakeClustersFrom cp cs k rand i n,
      (read_header cp k cl).map (fun h => (h, cl)) =
        .ok (pair_of cp k cl) := by
  intro n
  induction n with
  | zero =>
    intro i cl hcl
    simp [fakeClustersFrom] at hcl
  | succ m ih =>
    intro i cl hcl
    rcases List.mem_cons.mp hcl with rfl | h2
    · have hh := read_header_encoded_fake cp k (rand.nonces i)
        (rand.fakeCrcs i) (rand.pad i (cs - CLUSTER_META_SIZE)) hb2s htag
        (hfc i) (hnonce i)
      unfold pair_of header_of
      rw [hh]
      rfl
    · exact ih (i + 1) cl h2

theorem realPairsFrom_mem_spec (cp : CryptoPrimitives) (cs : ℕ)
    (k : CodenameKey) (dv P : ℕ) (rand : EncRand) :
    ∀ (l : List (List ℕ)) (i : ℕ) (pr : Header × List ℕ),
    pr ∈ realPairsFrom cp cs k dv P rand i l →
      pr.1.data_version = dv ∧ i ≤ pr.1.part_idx ∧
      pr.1.is_last_part = decide (pr.1.part_idx = P - 1) := by
  intro l
  induction l with
  | nil =>
    intro i pr hpr
    simp [realPairsFrom] at hpr
  | cons part rest ih =>
    intro i pr hpr
    rcases List.mem_cons.mp hpr with rfl | h2
    · exact ⟨rfl, le_refl i, rfl⟩
    · have := ih (i + 1) pr h2
      exact ⟨this.1, by omega, this.2.2⟩

theorem fakePairsFrom_mem_version (cp : CryptoPrimitives) (cs : ℕ)
    (k : CodenameKey) (rand : EncRand) :
    ∀ (n i : ℕ) (pr : Header × List ℕ),
    pr ∈ fakePairsFrom cp cs k rand i n →
      pr.1.data_version = FAKE_CONTENT_VERSION := by
  intro n
  induction n with
  | zero =>
    intro i pr hpr
    simp [fakePairsFrom] at hpr
  | succ m ih =>
    intro i pr hpr
    rcases List.mem_cons.mp hpr with rfl | h2
    · rfl
    · exact ih (i + 1) pr h2

theorem realPairsFrom_length (cp : CryptoPrimitives) (cs : ℕ)
    (k : CodenameKey) (dv P : ℕ) (rand : EncRand) :
    ∀ (l : List (List ℕ)) (i : ℕ),
    (realPairsFrom cp cs k dv P rand i l).length = l.length := by
  intro l
  induction l with
  | nil =>
    intro i
    rfl
  | cons part rest ih =>
    intro i
    show (realPairsFrom cp cs k dv P rand (i + 1) rest).length + 1 = _
    rw [ih (i + 1)]
    rfl

theorem realPairsFrom_countP (cp : CryptoPrimitives) (cs : ℕ)
    (k : CodenameKey) (dv P : ℕ) (rand : EncRand) :
    ∀ (l : List (List ℕ)) (i i0 : ℕ),
    (realPairsFrom cp cs k dv P rand i l).countP
        (fun pr => pr.1.part_idx == i0) =
      if i ≤ i0 ∧ i0 < i + l.length then 1 else 0 := by
  intro l
  induction l with
  | nil =>
    intro i i0
    simp only [realPairsFrom, List.countP_nil, List.length_nil]
    rw [if_neg (by omega)]
  | cons part rest ih =>
    intro i i0
    rw [show realPairsFrom cp cs k dv P rand i (part :: rest) =
      (⟨cp.crc32 part, decide (i = P - 1), dv, i, part.length⟩,
       encoded_real_cluster cp k (rand.nonces i) part i
         (set_bit_val part.length (decide (i = P - 1))) dv
         (rand.pad i (cs - (CLUSTER_META_SIZE + part.length)))) ::
      realPairsFrom cp cs k dv P rand (i + 1) rest from rfl,
      List.countP_cons, ih (i + 1) i0, List.length_cons]
    simp only [beq_iff_eq]
    split_ifs <;> omega

theorem realPairsFrom_pairwise (cp : CryptoPrimitives) (cs : ℕ)
    (k : CodenameKey) (dv P : ℕ) (rand : EncRand) :
    ∀ (l : List (List ℕ)) (i : ℕ),
    (realPairsFrom cp cs k dv P rand i l).Pairwise
      (fun a b => a.1.part_idx < b.1.part_idx) := by
  intro l
  induction l with
  | nil =>
    intro i
    exact List.Pairwise.nil
  | cons part rest ih =>
    intro i
    refine List.Pairwise.cons ?_ (ih (i + 1))
    intro b hb
    have := (realPairsFrom_mem_spec cp cs k dv P rand rest (i + 1) b hb).2.1
    show i < b.1.part_idx
    omega

theorem realPairsFrom_read_data (cp : CryptoPrimitives) (cs : ℕ)
    (k : CodenameKey) (dv P : ℕ) (rand : EncRand)
    (hb2s : ∀ x, (cp.blake2s128 x).length = MAC_LEN)
    (htag : ∀ k2 n2, (cp.imprintTag k2 n2).length = IMPRINT_TAG_LEN)
    (hcrcwf : ∀ x, cp.crc32 x < 2 ^ 32)
    (hnonce : ∀ i, (rand.nonces i).length = ENCRYPTION_NONCE_LEN)
    (hdv : dv < 2 ^ 32) :
    ∀ (l : List (List ℕ)) (i : ℕ), i + l.length ≤ 0x100 →
    (∀ part ∈ l, part.length ≤ 0x7FFF) →
    mapME (fun pr => read_data cp k pr.2)
      (realPairsFrom cp cs k dv P rand i l) = .ok l := by
  intro l
  induction l with
  | nil =>
    intro i _ _
    rfl
  | cons part rest ih =>
    intro i hi hparts
    have hlen : (part :: rest).length = rest.length + 1 := by simp
    have hd := read_data_encoded_real cp k (rand.nonces i) part
      (rand.pad i (cs - (CLUSTER_META_SIZE + part.length))) i dv
      (decide (i = P - 1)) hb2s htag hcrcwf (hnonce i) hdv
      (by rw [hlen] at hi; omega) (hparts part (by simp))
    show (do
      let b ← read_data cp k (encoded_real_cluster cp k (rand.nonces i) part
        i (set_bit_val part.length (decide (i = P - 1))) dv
        (rand.pad i (cs - (CLUSTER_META_SIZE + part.length))))
      let bs ← mapME (fun pr => read_data cp k pr.2)
        (realPairsFrom cp cs k dv P rand (i + 1) rest)
      Except.ok (b :: bs) : Except PyErr (List (List ℕ))) = _
    rw [hd, except_bind_ok, ih (i + 1) (by rw [hlen] at hi; omega)
      (fun q hq => hparts q (by simp [hq])), except_bind_ok]

theorem namegroup_read_canonical (cp : CryptoPrimitives) (cs : ℕ)
    (k : CodenameKey) (dv P n : ℕ) (rand : EncRand)
    (parts : List (List ℕ)) (pairsList : List (Header × List ℕ))
    (hb2s : ∀ x, (cp.blake2s128 x).length = MAC_LEN)
    (htag : ∀ k2 n2, (cp.imprintTag k2 n2).length = IMPRINT_TAG_LEN)
    (hcrcwf : ∀ x, cp.crc32 x < 2 ^ 32)
    (hnonce : ∀ i, (rand.nonces i).length = ENCRYPTION_NONCE_LEN)
    (hperm : List.Perm pairsList
      (realPairsFrom cp cs k dv P rand 0 parts ++
        fakePairsFrom cp cs k rand P n))
    (hP : parts.length = P) (hP1 : 1 ≤ P) (hP256 : P ≤ 0x100)
    (hparts : ∀ part ∈ parts, part.length ≤ 0x7FFF)
    (hdvF : dv < FAKE_CONTENT_VERSION) :
    namegroup_read cp k pairsList = .ok (some parts.join) := by
  have hF : FAKE_CONTENT_VERSION = 0xFFFFFFFF := rfl
  have hdv32 : dv < 2 ^ 32 := by omega
  have hreal_filter : (realPairsFrom cp cs k dv P rand 0 parts ++
      fakePairsFrom cp cs k rand P n).filter
      (fun pr => pr.1.data_version != FAKE_CONTENT_VERSION) =
      realPairsFrom cp cs k dv P rand 0 parts := by
    rw [List.filter_append,
      List.filter_eq_self.mpr (fun pr hpr => by
        have hv := (realPairsFrom_mem_spec cp cs k dv P rand parts 0
          pr hpr).1
        show (pr.1.data_version != FAKE_CONTENT_VERSION) = true
        rw [hv]
        simp only [bne_iff_ne, ne_eq]
        omega),
      List.filter_eq_nil_iff.mpr (fun pr hpr => by
        have hv := fakePairsFrom_mem_version cp cs k rand n P pr hpr
        show ¬ ((pr.1.data_version != FAKE_CONTENT_VERSION) = true)
        rw [hv]
        simp),
      List.append_nil]
  have hreals_perm : List.Perm
      (pairsList.filter (fun pr => pr.1.data_version != FAKE_CONTENT_VERSION))
      (realPairsFrom cp cs k dv P rand 0 parts) := by
    have h := hperm.filter
      (fun pr => pr.1.data_version != FAKE_CONTENT_VERSION)
    rw [hreal_filter] at h
    exact h
  have hrl : (pairsList.filter
      (fun pr => pr.1.data_version != FAKE_CONTENT_VERSION)).length = P := by
    rw [hreals_perm.length_eq, realPairsFrom_length, hP]
  have hne : ¬ ((pairsList.filter
      (fun pr => pr.1.data_version != FAKE_CONTENT_VERSION)).isEmpty =
        true) := by
    intro h
    rw [List.isEmpty_iff] at h
    rw [h] at hrl
    simp at hrl
    omega
  have hmem_reals : ∀ pr ∈ pairsList.filter
      (fun pr => pr.1.data_version != FAKE_CONTENT_VERSION),
      pr.1.data_version = dv ∧
      pr.1.is_last_part = decide (pr.1.part_idx = P - 1) := by
    intro pr hpr
    have hm := hreals_perm.mem_iff.mp hpr
    have hs := realPairsFrom_mem_spec cp cs k dv P rand parts 0 pr hm
    exact ⟨hs.1, hs.2.2⟩
  have hfv : ((pairsList.filter
      (fun pr => pr.1.data_version != FAKE_CONTENT_VERSION)).map
      (fun pr => pr.1.data_version)).foldr max 0 = dv := by
    apply foldr_max_eq
    · obtain ⟨pr, hpr⟩ := List.exists_mem_of_ne_nil
        (pairsList.filter
          (fun pr => pr.1.data_version != FAKE_CONTENT_VERSION)) (by
        intro h
        rw [h] at hrl
        simp at hrl
        omega)
      have hv := (hmem_reals pr hpr).1
      exact hv ▸ List.mem_map_of_mem _ hpr
    · intro x hx
      obtain ⟨pr, hpr, rfl⟩ := List.mem_map.mp hx
      rw [(hmem_reals pr hpr).1]
  have hfresh : (pairsList.filter
      (fun pr => pr.1.data_version != FAKE_CONTENT_VERSION)).filter
      (fun pr => pr.1.data_version == dv) =
      pairsList.filter
        (fun pr => pr.1.data_version != FAKE_CONTENT_VERSION) := by
    apply List.filter_eq_self.mpr
    intro pr hpr
    rw [(hmem_reals pr hpr).1]
    simp
  have hvalid : parts_valid (pairsList.filter
      (fun pr => pr.1.data_version != FAKE_CONTENT_VERSION)) = true := by
    unfold parts_valid
    simp only [hrl]
    rw [Bool.and_eq_true]
    constructor
    · rw [List.all_eq_true]
      intro i hi
      have hiP : i < P := List.mem_range.mp hi
      have hcount : (pairsList.filter
          (fun pr => pr.1.data_version != FAKE_CONTENT_VERSION)).countP
          (fun pr => pr.1.part_idx == i) = 1 := by
        rw [hreals_perm.countP_eq (fun pr => pr.1.part_idx == i),
          realPairsFrom_countP, if_pos (by omega)]
      rw [hcount]
      rfl
    · rw [List.all_eq_true]
      intro pr hpr
      rw [(hmem_reals pr hpr).2]
      simp
  have hsort : sortByIdx (pairsList.filter
      (fun pr => pr.1.data_version != FAKE_CONTENT_VERSION)) =
      realPairsFrom cp cs k dv P rand 0 parts :=
    sorted_perm_eq _ _ ((sortByIdx_perm _).trans hreals_perm)
      (sortByIdx_sorted _) (realPairsFrom_pairwise cp cs k dv P rand parts 0)
  have hbodies := realPairsFrom_read_data cp cs k dv P rand hb2s htag hcrcwf
    hnonce hdv32 parts 0 (by omega) hparts
  unfold namegroup_read
  simp only []
  rw [if_neg hne]
  simp only [hfv]
  rw [hfresh, if_pos hvalid, hsort]
  simp only [hbodies, except_bind_ok]

theorem namegroup_get_canonical (cp : CryptoPrimitives) (cs : ℕ)
    (k : CodenameKey) (dv P n : ℕ) (rand : EncRand)
    (parts other clusters : List (List ℕ))
    (hb2s : ∀ x, (cp.blake2s128 x).length = MAC_LEN)
    (htag : ∀ k2 n2, (cp.imprintTag k2 n2).length = IMPRINT_TAG_LEN)
    (hcrcwf : ∀ x, cp.crc32 x < 2 ^ 32)
    (hnonce : ∀ i, (rand.nonces i).length = ENCRYPTION_NONCE_LEN)
    (hfc : ∀ i, (rand.fakeCrcs i).length = 4)
    (hperm : List.Perm clusters
      (other ++ realClustersFrom cp cs k dv P rand 0 parts ++
        fakeClustersFrom cp cs k rand P n))
    (hother : ∀ cl ∈ other, belongs_to_namegroup cp k cl = false)
    (hP : parts.length = P) (hP1 : 1 ≤ P) (hP256 : P ≤ 0x100)
    (hparts : ∀ part ∈ parts, part.length ≤ 0x7FFF)
    (hdvF : dv < FAKE_CONTENT_VERSION) :
    namegroup_get cp k clusters = .ok (some parts.join) := by
  have hF : FAKE_CONTENT_VERSION = 0xFFFFFFFF := rfl
  have hdv32 : dv < 2 ^ 32 := by omega
  have hfilt_eq : (other ++ realClustersFrom cp cs k dv P rand 0 parts ++
      fakeClustersFrom cp cs k rand P n).filter
      (fun cl => belongs_to_namegroup cp k cl) =
      realClustersFrom cp cs k dv P rand 0 parts ++
        fakeClustersFrom cp cs k rand P n := by
    rw [List.filter_append, List.filter_append,
      List.filter_eq_nil_iff.mpr (fun cl hcl => by simp [hother cl hcl]),
      List.filter_eq_self.mpr (fun cl hcl =>
        realClustersFrom_belongs cp cs k dv P rand htag hnonce parts 0
          cl hcl),
      List.filter_eq_self.mpr (fun cl hcl =>
        fakeClustersFrom_belongs cp cs k rand htag hnonce n P cl hcl),
      List.nil_append]
  have hfperm : List.Perm
      (clusters.filter (fun cl => belongs_to_namegroup cp k cl))
      (realClustersFrom cp cs k dv P rand 0 parts ++
        fakeClustersFrom cp cs k rand P n) := by
    have h := hperm.filter (fun cl => belongs_to_namegroup cp k cl)
    rw [hfilt_eq] at h
    exact h
  have hmapok : mapME
      (fun cl => (read_header cp k cl).map (fun h => (h, cl)))
      (clusters.filter (fun cl => belongs_to_namegroup cp k cl)) =
      .ok ((clusters.filter
        (fun cl => belongs_to_namegroup cp k cl)).map (pair_of cp k)) := by
    apply mapME_ok_map
    intro cl hcl
    have hmem := hfperm.mem_iff.mp hcl
    rcases List.mem_append.mp hmem with h | h
    · exact realClustersFrom_f_ok cp cs k dv P rand hb2s htag hcrcwf hnonce
        hdv32 parts 0 (by omega) hparts cl h
    · exact fakeClustersFrom_f_ok cp cs k rand hb2s htag hnonce hfc n P cl h
  have hpairs_eq : (realClustersFrom cp cs k dv P rand 0 parts ++
      fakeClustersFrom cp cs k rand P n).map (pair_of cp k) =
      realPairsFrom cp cs k dv P rand 0 parts ++
        fakePairsFrom cp cs k rand P n := by
    rw [List.map_append,
      realClustersFrom_map_pair cp cs k dv P rand hb2s htag hcrcwf hnonce
        hdv32 parts 0 (by omega) hparts,
      fakeClustersFrom_map_pair cp cs k rand hb2s htag hnonce hfc n P]
  have hpperm : List.Perm
      ((clusters.filter
        (fun cl => belongs_to_namegroup cp k cl)).map (pair_of cp k))
      (realPairsFrom cp cs k dv P rand 0 parts ++
        fakePairsFrom cp cs k rand P n) := by
    have h := hfperm.map (pair_of cp k)
    rw [hpairs_eq] at h
    exact h
  unfold namegroup_get
  simp only [hmapok, except_bind_ok]
  exact namegroup_read_canonical cp cs k dv P n rand parts _ hb2s htag
    hcrcwf hnonce hpperm hP hP1 hP256 hparts hdvF

theorem namegroup_get_none (cp : CryptoPrimitives) (k2 : CodenameKey)
    (clusters : List (List ℕ))
    (hnone : ∀ cl ∈ clusters, belongs_to_namegroup cp k2 cl = false) :
    namegroup_get cp k2 clusters = .ok none := by
  unfold namegroup_get
  rw [List.filter_eq_nil_iff.mpr (fun cl hcl => by simp [hnone cl hcl])]
  rfl

/-- Evaluating `update_namegroup` on a container none of whose clusters
matches `k`: the new version is 1 and the result is the carried clusters
followed by the freshly encoded real parts and decoys, shuffled. -/
theorem update_namegroup_fresh (cp : CryptoPrimitives) (cs : ℕ)
    (k : CodenameKey) (p : List ℕ) (init : List (List ℕ)) (rand : EncRand)
    (shuffle : List (List ℕ) → List (List ℕ))
    (hb2s : ∀ x, (cp.blake2s128 x).length = MAC_LEN)
    (htag : ∀ k2 n2, (cp.imprintTag k2 n2).length = IMPRINT_TAG_LEN)
    (hcrcwf : ∀ x, cp.crc32 x < 2 ^ 32)
    (hnonce : ∀ i, (rand.nonces i).length = ENCRYPTION_NONCE_LEN)
    (hfc : ∀ i, (rand.fakeCrcs i).length = 4)
    (hmax : MAX_CLUSTER_CONTENT_SIZE cs ≤ 0x7FFF)
    (hcs : CLUSTER_META_SIZE < cs)
    (hp : p.length ≤ 0x100 * MAX_CLUSTER_CONTENT_SIZE cs)
    (hinit : ∀ cl ∈ init, belongs_to_namegroup cp k cl = false) :
    update_namegroup cp cs k p init rand shuffle =
      .ok (shuffle (init ++
        realClustersFrom cp cs k 1 (parts_of cs p).length rand 0
          (parts_of cs p) ++
        fakeClustersFrom cp cs k rand (parts_of cs p).length
          rand.nFakes)) := by
  have hcm : CLUSTER_META_SIZE = 60 := rfl
  have hmd : MAX_CLUSTER_CONTENT_SIZE cs = cs - CLUSTER_META_SIZE := rfl
  have hm : 0 < MAX_CLUSTER_CONTENT_SIZE cs := by omega
  have hmine : init.filter (fun cl => belongs_to_namegroup cp k cl) = [] :=
    List.filter_eq_nil_iff.mpr (fun cl hcl => by simp [hinit cl hcl])
  have hcarried : init.filter
      (fun cl => ! belongs_to_namegroup cp k cl) = init :=
    List.filter_eq_self.mpr (fun cl hcl => by simp [hinit cl hcl])
  have henc := encode_parts_eq cp cs k 1 (parts_of cs p).length rand hb2s
    htag hcrcwf hnonce (by norm_num) (parts_of_length_pos cs p)
    (parts_of_length_le cs p hm hp) hmax (by omega) (parts_of cs p) 0
    (by omega) (parts_of_sizes cs p hm)
  have hfakes := encode_fakes_eq cp cs k rand hb2s htag hnonce hfc hmax
    (by omega) rand.nFakes (parts_of cs p).length
  unfold update_namegroup
  rw [hmine, hcarried]
  simp only [mapME, except_bind_ok, List.filter_nil, List.map_nil,
    List.foldr_nil, Nat.zero_add]
  rw [if_neg (by decide)]
  simp only [henc, except_bind_ok, hfakes]

theorem take_cons_ne (a b n : ℕ) (l1 l2 : List ℕ) (hab : a ≠ b)
    (hn : 0 < n) : (a :: l1).take n ≠ (b :: l2).take n := by
  cases n with
  | zero => omega
  | succ m => simp [hab]

/-- C1 (amended): set/get round trip in a container.  For every codename
`c`, every plaintext `p` of length at most `0x100 ·
MAX_CLUSTER_CONTENT_SIZE` (the update protocol writes at most 0x100 parts
because the encoder rejects larger `parts_len`), and every initial
container whose clusters match neither `c`'s key nor `c2`'s key, running
the update protocol (`set`) with `p` under `c` and then the read path
(`get`) for `c` returns exactly `p`, while `get` for the never-written
codename `c2` returns `none`.  The KDF, the shuffle, and the drawn
randomness are parameters constrained only by their shape (the shuffle
permutes, spec §4.H step 4; the keys' imprint tags differ, spec §8
property 9). -/
theorem C1_amended_set_get_roundtrip (cs : ℕ) (cp : CryptoPrimitives)
    (kdf : List ℕ → List ℕ → CodenameKey) (salt c c2 p : List ℕ)
    (init : List (List ℕ)) (rand : EncRand)
    (shuffle : List (List ℕ) → List (List ℕ))
    (hwf : cp.WF) (hrwf : rand.WF)
    (hshuffle : ∀ l, List.Perm (shuffle l) l)
    (hmax : MAX_CLUSTER_CONTENT_SIZE cs ≤ 0x7FFF)
    (hcs : CLUSTER_META_SIZE < cs)
    (hp : p.length ≤ 0x100 * MAX_CLUSTER_CONTENT_SIZE cs)
    (hinit : ∀ cl ∈ init, belongs_to_namegroup cp (kdf c salt) cl = false ∧
      belongs_to_namegroup cp (kdf c2 salt) cl = false)
    (hkeys : ∀ nonce, cp.imprintTag (kdf c2 salt) nonce ≠
      cp.imprintTag (kdf c salt) nonce) :
    ∃ d, cryptodir_set cp cs kdf ⟨salt, init⟩ c p rand shuffle = .ok d ∧
      cryptodir_get cp kdf d c = .ok (some p) ∧
      cryptodir_get cp kdf d c2 = .ok none := by
  obtain ⟨hb2s, htag, hcrcwf⟩ := hwf
  obtain ⟨hnonce, hfc, hpad⟩ := hrwf
  have hcm : CLUSTER_META_SIZE = 60 := rfl
  have hmd : MAX_CLUSTER_CONTENT_SIZE cs = cs - CLUSTER_META_SIZE := rfl
  have hm : 0 < MAX_CLUSTER_CONTENT_SIZE cs := by omega
  have hupd := update_namegroup_fresh cp cs (kdf c salt) p init rand shuffle
    hb2s htag hcrcwf hnonce hfc hmax hcs hp (fun cl hcl => (hinit cl hcl).1)
  refine ⟨⟨salt, shuffle (init ++
      realClustersFrom cp cs (kdf c salt) 1 (parts_of cs p).length rand 0
        (parts_of cs p) ++
      fakeClustersFrom cp cs (kdf c salt) rand (parts_of cs p).length
        rand.nFakes)⟩, ?_, ?_, ?_⟩
  · unfold cryptodir_set
    rw [hupd]
    rfl
  · unfold cryptodir_get
    have hg := namegroup_get_canonical cp cs (kdf c salt) 1
      (parts_of cs p).length rand.nFakes rand (parts_of cs p) init _
      hb2s htag hcrcwf hnonce hfc (hshuffle _)
      (fun cl hcl => (hinit cl hcl).1) rfl (parts_of_length_pos cs p)
      (parts_of_length_le cs p hm hp)
      (fun part hp2 => le_trans (parts_of_sizes cs p hm part hp2) hmax)
      (by decide)
    rw [parts_of_join cs p hm] at hg
    exact hg
  · unfold cryptodir_get
    apply namegroup_get_none
    intro cl hcl
    have hmem := (hshuffle _).mem_iff.mp hcl
    rcases List.mem_append.mp hmem with h12 | hfk
    · rcases List.mem_append.mp h12 with hI | hR
      · exact (hinit cl hI).2
      · exact realClustersFrom_not_belongs cp cs (kdf c salt) (kdf c2 salt)
          1 (parts_of cs p).length rand htag hnonce hkeys (parts_of cs p) 0
          cl hR
    · exact fakeClustersFrom_not_belongs cp cs (kdf c salt) (kdf c2 salt)
        rand htag hnonce hkeys rand.nFakes (parts_of cs p).length cl hfk

set_option maxRecDepth 100000 in
/-- C1 counterexample to "every plaintext byte string": with cluster size
61 (so MAX_CLUSTER_CONTENT_SIZE = 1, satisfying the code's assertion), a
257-byte value would need 257 parts, and `Encrypt.__init__` rejects
`parts_len = 257 > 0x100` with ValueError, so `set` fails instead of
storing the value. -/
theorem C1_counterexample_plaintext_too_long :
    cryptodir_set cp_example 61 (fun name _ => name) ⟨[5], []⟩ [97]
      (List.replicate 257 1)
      ⟨fun _ => List.replicate 12 3, fun _ => [0, 0, 0, 0],
        fun _ n => List.replicate n 9, 1⟩ id =
      .error (.valueError "parts_len=257") := by
  decide

/-- Witness for the amended C1 at cluster size 64 (MAX = 4), plaintext
[7, 8, 9, 10, 11] stored as two parts under codename byte 97, read back
in full, with codename byte 98 unset. -/
theorem C1_amended_set_get_roundtrip_witness :
    ∃ d, cryptodir_set cp_example 64 (fun name _ => name) ⟨[5], []⟩ [97]
        [7, 8, 9, 10, 11]
        ⟨fun _ => List.replicate 12 3, fun _ => [0, 0, 0, 0],
          fun _ n => List.replicate n 9, 1⟩ id = .ok d ∧
      cryptodir_get cp_example (fun name _ => name) d [97] =
        .ok (some [7, 8, 9, 10, 11]) ∧
      cryptodir_get cp_example (fun name _ => name) d [98] = .ok none :=
  C1_amended_set_get_roundtrip 64 cp_example (fun name _ => name) [5] [97]
    [98] [7, 8, 9, 10, 11] []
    ⟨fun _ => List.replicate 12 3, fun _ => [0, 0, 0, 0],
      fun _ n => List.replicate n 9, 1⟩ id cp_example_wf
    ⟨fun i => by simp [ENCRYPTION_NONCE_LEN], fun i => rfl,
      fun i n => by simp⟩
    (fun l => List.Perm.refl l) (by decide) (by decide) (by decide)
    (fun cl hcl => absurd hcl (List.not_mem_nil cl))
    (fun nonce => by
      exact take_cons_ne 98 97 20 (nonce ++ List.replicate 20 0)
        (nonce ++ List.replicate 20 0) (by decide) (by decide))
